import Mathlib

/-!
Verification of the classification, run-detection and layout-selection engine
of the stringer generator.  The Go source is shallowly embedded: 64-bit
machine words are `Nat` bit patterns strictly below `2 ^ 64`, signed
interpretation is made explicit through `toInt64`, strings are Lean `String`s
and byte offsets are character counts.
-/

namespace Stringer

/-- The two classification kinds, from the `Kind` enumeration of the source
(`Flag` and `Enum`). -/
inductive Kind where
  | Flag : Kind
  | Enum : Kind
deriving DecidableEq, Repr

/-- Modulus of 64-bit machine arithmetic. -/
def W64 : Nat := 2 ^ 64

/-- Half of the 64-bit range: first bit pattern that is negative as `int64`. -/
def W63 : Nat := 2 ^ 63

theorem W64_eq : W64 = 18446744073709551616 := by norm_num [W64]

theorem W63_eq : W63 = 9223372036854775808 := by norm_num [W63]

theorem W64_pos : 0 < W64 := by norm_num [W64_eq]

theorem W63_lt_W64 : W63 < W64 := by norm_num [W63_eq, W64_eq]

/-- Reading of a 64-bit pattern as `int64` (two's complement). -/
def toInt64 (x : Nat) : Int :=
  if x < W63 then (x : Int) else (x : Int) - (W64 : Int)

/-- Interpretation of a pattern as the integer the Go type denotes:
signed two's complement when `signed`, else the unsigned value. -/
def interp (signed : Bool) (x : Nat) : Int :=
  if signed then toInt64 x else (x : Int)

/-- A declared constant, from the source's `Value` struct: the name with the
prefix trimmed (`name`), the 64-bit bit pattern (`value`), the signedness of
the constant's type (`signed`) and the literal text (`str`). -/
structure Value where
  originalName : String
  name : String
  value : Nat
  signed : Bool
  str : String
deriving DecidableEq, Repr

instance : Inhabited Value := ⟨⟨"", "", 0, false, ""⟩⟩

/-- The comparison of `byValue.Less`: when the left operand is signed both
patterns are compared as `int64`, otherwise as `uint64`. -/
def valueLess (a b : Value) : Bool :=
  if a.signed then decide (toInt64 a.value < toInt64 b.value)
  else decide (a.value < b.value)

/-- Ordering relation of `sort.Stable` derived from `byValue.Less`:
`a` may precede `b` when `Less b a` fails. -/
def leV (a b : Value) : Bool := !valueLess b a

/-- Stable insertion of one element into an already sorted list, placing the
new element before the first existing element it need not follow. -/
def orderedInsert (v : Value) : List Value → List Value
  | [] => [v]
  | w :: ws => if valueLess w v then w :: orderedInsert v ws else v :: w :: ws

/-- Stable sort modelling `sort.Stable(byValue(values))`: with a uniform
signedness the comparator is a strict total order, under which every stable
sort produces this one output. -/
def sortValues : List Value → List Value
  | [] => []
  | v :: vs => orderedInsert v (sortValues vs)

/-- The duplicate-removal scan of `splitIntoRuns`: an element is kept exactly
when its value differs from the value of its original predecessor. -/
def dedupFrom (prev : Value) : List Value → List Value
  | [] => []
  | v :: vs => if v.value = prev.value then dedupFrom v vs else v :: dedupFrom v vs

/-- Duplicate removal keeping the first element of every equal-value block. -/
def removeDups : List Value → List Value
  | [] => []
  | v :: vs => v :: dedupFrom v vs

/-- Sort followed by duplicate removal, the normalization prelude of
`splitIntoRuns`. -/
def normalizeValues (l : List Value) : List Value := removeDups (sortValues l)

/-- The kind-specific contiguity test of the run-splitting loop, on 64-bit
patterns: for `Enum`, `b = a + 1` with unsigned wraparound; for `Flag`,
`a = 0` or `b = a <<< 1` with unsigned wraparound. -/
def contiguous (kind : Kind) (a b : Nat) : Bool :=
  match kind with
  | .Flag => decide (a = 0) || decide (b = a * 2 % W64)
  | .Enum => decide (b = (a + 1) % W64)

/-- The greedy splitting loop: `acc` is the run grown so far (never empty),
`prev` its last element; a contiguous next value extends the run, any other
value closes it and starts a new one. -/
def splitAux (kind : Kind) (prev : Value) (acc : List Value) : List Value → List (List Value)
  | [] => [acc]
  | v :: vs =>
    if contiguous kind prev.value v.value then splitAux kind v (acc ++ [v]) vs
    else acc :: splitAux kind v [v] vs

/-- Partition of an already normalized sequence into maximal contiguous runs. -/
def splitRuns (kind : Kind) : List Value → List (List Value)
  | [] => []
  | v :: vs => splitAux kind v [v] vs

/-- The source's `splitIntoRuns`: stable sort, duplicate removal, then the
greedy partition into maximal contiguous runs. -/
def splitIntoRuns (values : List Value) (kind : Kind) : List (List Value) :=
  splitRuns kind (normalizeValues values)

/-- The four layout strategies of the design. -/
inductive Strategy where
  | SingleRun : Strategy
  | MultiRunSwitch : Strategy
  | MultiRunFlagDecompose : Strategy
  | SparseMap : Strategy
deriving DecidableEq, Repr

/-- The dispatch of `generate` on `len(runs)` and `kind`: one enum run builds
the single-run method, up to eight runs build the switch (enum) or the flag
decomposition, anything larger builds the map. -/
def selectStrategy (numRuns : Nat) (kind : Kind) : Strategy :=
  if numRuns = 1 ∧ kind = Kind.Enum then Strategy.SingleRun
  else if numRuns ≤ 8 then
    if kind = Kind.Flag then Strategy.MultiRunFlagDecompose else Strategy.MultiRunSwitch
  else Strategy.SparseMap

/-- The strategy `generate` ends up using for a value list of a given kind. -/
def generateStrategy (values : List Value) (kind : Kind) : Strategy :=
  selectStrategy (splitIntoRuns values kind).length kind

/-! ### Structural lemmas about the greedy run splitting -/

theorem splitAux_flatten (kind : Kind) (l : List Value) :
    ∀ prev acc, (splitAux kind prev acc l).flatten = acc ++ l := by
  induction l with
  | nil => intro prev acc ; simp [splitAux]
  | cons v vs ih =>
    intro prev acc
    cases hcont : contiguous kind prev.value v.value with
    | true => simp [splitAux, hcont, ih v (acc ++ [v])]
    | false => simp [splitAux, hcont, ih v [v]]

theorem splitRuns_flatten (kind : Kind) (l : List Value) :
    (splitRuns kind l).flatten = l := by
  cases l with
  | nil => rfl
  | cons v vs => simpa using splitAux_flatten kind vs v [v]

theorem splitAux_ne_nil (kind : Kind) (l : List Value) :
    ∀ prev acc, acc ≠ [] → ∀ r ∈ splitAux kind prev acc l, r ≠ [] := by
  induction l with
  | nil =>
    intro prev acc hacc r hr
    simp only [splitAux, List.mem_singleton] at hr
    subst hr ; exact hacc
  | cons v vs ih =>
    intro prev acc hacc r hr
    cases hcont : contiguous kind prev.value v.value with
    | true =>
      simp only [splitAux, hcont, if_true] at hr
      exact ih v (acc ++ [v]) (by simp) r hr
    | false =>
      simp only [splitAux, hcont, Bool.false_eq_true, if_false, List.mem_cons] at hr
      rcases hr with rfl | hmem
      · exact hacc
      · exact ih v [v] (by simp) r hmem

theorem splitRuns_ne_nil (kind : Kind) (l : List Value) :
    ∀ r ∈ splitRuns kind l, r ≠ [] := by
  cases l with
  | nil => simp [splitRuns]
  | cons v vs => exact splitAux_ne_nil kind vs v [v] (by simp)

theorem splitAux_chain (kind : Kind) (l : List Value) :
    ∀ prev acc, acc.getLast? = some prev →
      List.Chain' (fun a b => contiguous kind a.value b.value = true) acc →
      ∀ r ∈ splitAux kind prev acc l,
        List.Chain' (fun a b => contiguous kind a.value b.value = true) r := by
  induction l with
  | nil =>
    intro prev acc _ hch r hr
    simp only [splitAux, List.mem_singleton] at hr
    subst hr ; exact hch
  | cons v vs ih =>
    intro prev acc hlast hch r hr
    cases hcont : contiguous kind prev.value v.value with
    | true =>
      simp only [splitAux, hcont, if_true] at hr
      refine ih v (acc ++ [v]) (by simp) ?_ r hr
      refine List.Chain'.append hch (by simp) ?_
      intro x hx y hy
      simp only [List.head?_cons, Option.mem_def, Option.some.injEq] at hy
      rw [hlast] at hx
      simp only [Option.mem_def, Option.some.injEq] at hx
      subst hx ; subst hy ; exact hcont
    | false =>
      simp only [splitAux, hcont, Bool.false_eq_true, if_false, List.mem_cons] at hr
      rcases hr with rfl | hmem
      · exact hch
      · exact ih v [v] (by simp) (by simp) r hmem

theorem splitRuns_chain (kind : Kind) (l : List Value) :
    ∀ r ∈ splitRuns kind l,
      List.Chain' (fun a b => contiguous kind a.value b.value = true) r := by
  cases l with
  | nil => simp [splitRuns]
  | cons v vs => exact splitAux_chain kind vs v [v] (by simp) (by simp)

theorem splitAux_first (kind : Kind) (l : List Value) :
    ∀ prev acc, ∃ ext rest, splitAux kind prev acc l = (acc ++ ext) :: rest := by
  induction l with
  | nil => intro prev acc ; exact ⟨[], [], by simp [splitAux]⟩
  | cons v vs ih =>
    intro prev acc
    cases hcont : contiguous kind prev.value v.value with
    | true =>
      obtain ⟨ext, rest, het⟩ := ih v (acc ++ [v])
      exact ⟨v :: ext, rest, by simp [splitAux, hcont, het]⟩
    | false => exact ⟨[], splitAux kind v [v] vs, by simp [splitAux, hcont]⟩

/-- Failure of contiguity at the boundary between two consecutive runs. -/
def boundaryFail (kind : Kind) (r1 r2 : List Value) : Prop :=
  ∀ a ∈ r1.getLast?, ∀ b ∈ r2.head?, contiguous kind a.value b.value = false

theorem splitAux_boundary (kind : Kind) (l : List Value) :
    ∀ prev acc, acc.getLast? = some prev →
      List.Chain' (boundaryFail kind) (splitAux kind prev acc l) := by
  induction l with
  | nil => intro prev acc _ ; simp [splitAux]
  | cons v vs ih =>
    intro prev acc hlast
    cases hcont : contiguous kind prev.value v.value with
    | true =>
      simp only [splitAux, hcont, if_true]
      exact ih v (acc ++ [v]) (by simp)
    | false =>
      simp only [splitAux, hcont, Bool.false_eq_true, if_false]
      obtain ⟨ext, rest, het⟩ := splitAux_first kind vs v [v]
      rw [het]
      refine List.Chain'.cons ?_ (het ▸ ih v [v] (by simp))
      intro a ha b hb
      rw [hlast] at ha
      simp only [Option.mem_def, Option.some.injEq] at ha
      subst ha
      simp only [List.head?_append_of_ne_nil, List.head?_cons, Option.mem_def,
        Option.some.injEq] at hb
      cases hb
      exact hcont

theorem splitRuns_boundary (kind : Kind) (l : List Value) :
    List.Chain' (boundaryFail kind) (splitRuns kind l) := by
  cases l with
  | nil => simp [splitRuns]
  | cons v vs => exact splitAux_boundary kind vs v [v] (by simp)

/-! ### Ordering facts for the normalizer -/

/-- All constants of one list carry the same signedness flag. -/
def UniformSigned (s : Bool) (l : List Value) : Prop := ∀ v ∈ l, v.signed = s

/-- All bit patterns fit in 64 bits. -/
def BoundedVals (l : List Value) : Prop := ∀ v ∈ l, v.value < W64

/-- Non-decreasing under the interpretation chosen by the signedness. -/
def SortedI (s : Bool) (l : List Value) : Prop :=
  List.Pairwise (fun a b => interp s a.value ≤ interp s b.value) l

/-- Strictly increasing under the interpretation chosen by the signedness. -/
def StrictSortedI (s : Bool) (l : List Value) : Prop :=
  List.Pairwise (fun a b => interp s a.value < interp s b.value) l

theorem toInt64_inj {x y : Nat} (hx : x < W64) (hy : y < W64)
    (h : toInt64 x = toInt64 y) : x = y := by
  unfold toInt64 at h
  rw [W64_eq] at hx hy
  rw [W63_eq] at h
  have hW : (W64 : Int) = 18446744073709551616 := by rw [W64_eq] ; norm_num
  rw [hW] at h
  split at h <;> split at h <;> omega

theorem interp_inj {s : Bool} {x y : Nat} (hx : x < W64) (hy : y < W64)
    (h : interp s x = interp s y) : x = y := by
  cases s with
  | true => exact toInt64_inj hx hy (by simpa [interp] using h)
  | false => simpa [interp] using h

theorem valueLess_interp {s : Bool} (a b : Value) (ha : a.signed = s) :
    valueLess a b = decide (interp s a.value < interp s b.value) := by
  cases s with
  | true => simp [valueLess, ha, interp]
  | false =>
    simp only [valueLess, ha, if_neg, interp, Bool.false_eq_true, if_false]
    simp

theorem orderedInsert_perm (v : Value) (l : List Value) :
    (orderedInsert v l).Perm (v :: l) := by
  induction l with
  | nil => simp [orderedInsert]
  | cons w ws ih =>
    unfold orderedInsert
    split
    · exact ((ih.cons w).trans (List.Perm.swap v w ws))
    · exact List.Perm.refl _

theorem mem_orderedInsert {x v : Value} {l : List Value} :
    x ∈ orderedInsert v l ↔ x = v ∨ x ∈ l := by
  rw [(orderedInsert_perm v l).mem_iff] ; simp

theorem sortValues_perm (l : List Value) : (sortValues l).Perm l := by
  induction l with
  | nil => simp [sortValues]
  | cons v vs ih => exact (orderedInsert_perm v (sortValues vs)).trans (ih.cons v)

theorem mem_sortValues {x : Value} {l : List Value} : x ∈ sortValues l ↔ x ∈ l :=
  (sortValues_perm l).mem_iff

theorem orderedInsert_sorted {s : Bool} {v : Value} {l : List Value}
    (hv : v.signed = s) (hu : UniformSigned s l) (hl : SortedI s l) :
    SortedI s (orderedInsert v l) := by
  induction l with
  | nil => simp [orderedInsert, SortedI]
  | cons w ws ih =>
    have hw : w.signed = s := hu w (by simp)
    have hws : UniformSigned s ws := fun x hx => hu x (by simp [hx])
    have hsws : SortedI s ws := hl.of_cons
    unfold orderedInsert
    split
    · rename_i hlt
      rw [valueLess_interp w v hw, decide_eq_true_eq] at hlt
      refine List.Pairwise.cons ?_ (ih hws hsws)
      intro x hx
      rcases mem_orderedInsert.mp hx with rfl | hx
      · exact le_of_lt hlt
      · exact List.rel_of_pairwise_cons hl hx
    · rename_i hnlt
      rw [valueLess_interp w v hw, decide_eq_true_eq] at hnlt
      push_neg at hnlt
      refine List.Pairwise.cons ?_ hl
      intro x hx
      rcases List.mem_cons.mp hx with rfl | hx
      · exact hnlt
      · exact le_trans hnlt (List.rel_of_pairwise_cons hl hx)

theorem sortValues_sorted {s : Bool} {l : List Value} (hu : UniformSigned s l) :
    SortedI s (sortValues l) := by
  induction l with
  | nil => simp [sortValues, SortedI]
  | cons v vs ih =>
    have hvs : UniformSigned s vs := fun x hx => hu x (by simp [hx])
    exact orderedInsert_sorted (hu v (by simp))
      (fun x hx => hvs x (mem_sortValues.mp hx)) (ih hvs)

theorem dedupFrom_sublist (p : Value) (l : List Value) : (dedupFrom p l).Sublist l := by
  induction l generalizing p with
  | nil => simp [dedupFrom]
  | cons v vs ih =>
    unfold dedupFrom
    split
    · exact (ih v).trans (List.sublist_cons_self v vs)
    · exact (ih v).cons₂ v

theorem removeDups_sublist (l : List Value) : (removeDups l).Sublist l := by
  cases l with
  | nil => simp [removeDups]
  | cons v vs => exact (dedupFrom_sublist v vs).cons₂ v

/-- After duplicate removal a sorted list is strictly sorted: the kept element
of every equal-value block leads it and later kept elements are larger. -/
theorem dedupFrom_strict {s : Bool} (l : List Value) :
    ∀ p : Value, p.signed = s → p.value < W64 → UniformSigned s l → BoundedVals l →
      SortedI s (p :: l) →
      StrictSortedI s (p :: dedupFrom p l) := by
  induction l with
  | nil => intro p _ _ _ _ _ ; simp [dedupFrom, StrictSortedI]
  | cons v vs ih =>
    intro p hps hpb hu hb hs
    have hvs : v.signed = s := hu v (by simp)
    have hvb : v.value < W64 := hb v (by simp)
    have hu' : UniformSigned s vs := fun x hx => hu x (by simp [hx])
    have hb' : BoundedVals vs := fun x hx => hb x (by simp [hx])
    have hs' : SortedI s (v :: vs) := hs.of_cons
    unfold dedupFrom
    split
    · rename_i heq
      have hIH := ih v hvs hvb hu' hb' hs'
      rcases hIH with _ | ⟨hhead, htail⟩
      refine List.Pairwise.cons ?_ htail
      intro x hx
      have : interp s v.value = interp s p.value := by rw [heq]
      calc interp s p.value = interp s v.value := this.symm
        _ < interp s x.value := hhead x hx
    · rename_i hne
      have hIH := ih v hvs hvb hu' hb' hs'
      have hpv : interp s p.value < interp s v.value := by
        have hle : interp s p.value ≤ interp s v.value :=
          List.rel_of_pairwise_cons hs (by simp)
        rcases lt_or_eq_of_le hle with h | h
        · exact h
        · exact absurd (interp_inj hpb hvb h).symm hne
      refine List.Pairwise.cons ?_ hIH
      intro x hx
      rcases List.mem_cons.mp hx with rfl | hx
      · exact hpv
      · rcases hIH with _ | ⟨hhead, _⟩
        exact lt_trans hpv (hhead x hx)

theorem removeDups_strict {s : Bool} {l : List Value} (hu : UniformSigned s l)
    (hb : BoundedVals l) (hs : SortedI s l) : StrictSortedI s (removeDups l) := by
  cases l with
  | nil => simp [removeDups, StrictSortedI]
  | cons v vs =>
    exact dedupFrom_strict vs v (hu v (by simp)) (hb v (by simp))
      (fun x hx => hu x (by simp [hx])) (fun x hx => hb x (by simp [hx])) hs

theorem normalizeValues_strict {s : Bool} {l : List Value} (hu : UniformSigned s l)
    (hb : BoundedVals l) : StrictSortedI s (normalizeValues l) :=
  removeDups_strict
    (fun x hx => hu x ((sortValues_perm l).mem_iff.mp hx))
    (fun x hx => hb x ((sortValues_perm l).mem_iff.mp hx))
    (sortValues_sorted hu)

/-! ### Stability: the surviving constant is the first declared one -/

theorem find?_eq_head?_filter (p : Value → Bool) (l : List Value) :
    l.find? p = (l.filter p).head? := by
  induction l with
  | nil => simp
  | cons v vs ih =>
    cases hv : p v with
    | true => rw [List.find?_cons_of_pos vs hv, List.filter_cons_of_pos hv, List.head?_cons]
    | false => rw [List.find?_cons_of_neg vs (by simp [hv]), List.filter_cons_of_neg (by simp [hv]), ih]

theorem orderedInsert_filter_pos {s : Bool} {u : Nat} {v : Value} (l : List Value)
    (hvu : v.value = u) (hu : UniformSigned s l) :
    (orderedInsert v l).filter (fun x => x.value = u) =
      v :: l.filter (fun x => x.value = u) := by
  induction l with
  | nil => simp [orderedInsert, hvu]
  | cons w ws ih =>
    have hw : w.signed = s := hu w (by simp)
    have hws : UniformSigned s ws := fun x hx => hu x (by simp [hx])
    unfold orderedInsert
    split
    · rename_i hlt
      have hwu : ¬ (w.value = u) := by
        intro hwu
        rw [valueLess_interp w v hw, decide_eq_true_eq, hwu, ← hvu] at hlt
        exact lt_irrefl _ hlt
      simp only [List.filter_cons, hwu, decide_eq_true_eq, if_neg, ih hws]
      simp [hwu]
    · simp [List.filter_cons, hvu]

theorem orderedInsert_filter_neg {u : Nat} {v : Value} (l : List Value)
    (hvu : ¬ (v.value = u)) :
    (orderedInsert v l).filter (fun x => x.value = u) =
      l.filter (fun x => x.value = u) := by
  induction l with
  | nil => simp [orderedInsert, hvu]
  | cons w ws ih =>
    unfold orderedInsert
    split
    · simp only [List.filter_cons, ih]
    · simp [List.filter_cons, hvu]

/-- The stable sort leaves the relative order of equal-valued constants
untouched: filtering one value class commutes with sorting. -/
theorem sortValues_filter {s : Bool} (u : Nat) {l : List Value}
    (hu : UniformSigned s l) :
    (sortValues l).filter (fun x => x.value = u) = l.filter (fun x => x.value = u) := by
  induction l with
  | nil => simp [sortValues]
  | cons v vs ih =>
    have hvs : UniformSigned s vs := fun x hx => hu x (by simp [hx])
    have husort : UniformSigned s (sortValues vs) :=
      fun x hx => hvs x (mem_sortValues.mp hx)
    by_cases hvu : v.value = u
    · rw [sortValues, orderedInsert_filter_pos (sortValues vs) hvu husort, ih hvs]
      simp [List.filter_cons, hvu]
    · rw [sortValues, orderedInsert_filter_neg (sortValues vs) hvu, ih hvs]
      simp [List.filter_cons, hvu]

/-- Inside a sorted list, every survivor of the duplicate scan is the first
element of the list carrying its value. -/
theorem dedupFrom_find {s : Bool} (l : List Value) :
    ∀ p : Value, p.signed = s → p.value < W64 → UniformSigned s l → BoundedVals l →
      SortedI s (p :: l) →
      ∀ w ∈ dedupFrom p l,
        ¬ (p.value = w.value) ∧ l.find? (fun x => x.value = w.value) = some w := by
  induction l with
  | nil => intro p _ _ _ _ _ w hw ; simp [dedupFrom] at hw
  | cons v vs ih =>
    intro p hps hpb hu hb hs w hw
    have hvs : v.signed = s := hu v (by simp)
    have hvb : v.value < W64 := hb v (by simp)
    have hu' : UniformSigned s vs := fun x hx => hu x (by simp [hx])
    have hb' : BoundedVals vs := fun x hx => hb x (by simp [hx])
    have hs' : SortedI s (v :: vs) := hs.of_cons
    unfold dedupFrom at hw
    rcases Decidable.em (v.value = p.value) with heq | hne
    · rw [if_pos heq] at hw
      obtain ⟨hvw, hfind⟩ := ih v hvs hvb hu' hb' hs' w hw
      refine ⟨by rw [← heq] at * ; exact hvw, ?_⟩
      rw [List.find?_cons_of_neg _ (by simpa using hvw), hfind]
    · rw [if_neg hne] at hw
      rcases List.mem_cons.mp hw with rfl | hw
      · refine ⟨fun h => hne h.symm, ?_⟩
        rw [List.find?_cons_of_pos _ (by simp)]
      · obtain ⟨hvw, hfind⟩ := ih v hvs hvb hu' hb' hs' w hw
        have hwvs : w ∈ vs := (dedupFrom_sublist v vs).mem hw
        have hwb : w.value < W64 := hb' w hwvs
        have hpv : interp s p.value < interp s v.value := by
          have hle : interp s p.value ≤ interp s v.value :=
            List.rel_of_pairwise_cons hs (by simp)
          rcases lt_or_eq_of_le hle with h | h
          · exact h
          · exact absurd (interp_inj hpb hvb h) (fun hh => hne hh.symm)
        have hvw' : interp s v.value < interp s w.value := by
          have hle : interp s v.value ≤ interp s w.value :=
            List.rel_of_pairwise_cons hs' hwvs
          rcases lt_or_eq_of_le hle with h | h
          · exact h
          · exact absurd (interp_inj hvb hwb h) hvw
        refine ⟨fun h => ?_, ?_⟩
        · rw [h] at hpv ; exact lt_asymm hpv hvw'
        · rw [List.find?_cons_of_neg _ (by simpa using hvw), hfind]

theorem removeDups_find {s : Bool} {l : List Value} (hu : UniformSigned s l)
    (hb : BoundedVals l) (hs : SortedI s l) :
    ∀ w ∈ removeDups l, l.find? (fun x => x.value = w.value) = some w := by
  cases l with
  | nil => simp [removeDups]
  | cons v vs =>
    intro w hw
    unfold removeDups at hw
    rcases List.mem_cons.mp hw with rfl | hw
    · rw [List.find?_cons_of_pos _ (by simp)]
    · obtain ⟨hvw, hfind⟩ := dedupFrom_find vs v (hu v (by simp)) (hb v (by simp))
        (fun x hx => hu x (by simp [hx])) (fun x hx => hb x (by simp [hx])) hs w hw
      rw [List.find?_cons_of_neg _ (by simpa using hvw), hfind]

/-- First-occurrence survival: each normalized constant is the first constant
of the input list holding its value. -/
theorem normalizeValues_find {s : Bool} {l : List Value} (hu : UniformSigned s l)
    (hb : BoundedVals l) :
    ∀ w ∈ normalizeValues l, l.find? (fun x => x.value = w.value) = some w := by
  intro w hw
  have husort : UniformSigned s (sortValues l) :=
    fun x hx => hu x (mem_sortValues.mp hx)
  have hbsort : BoundedVals (sortValues l) :=
    fun x hx => hb x (mem_sortValues.mp hx)
  have h1 : (sortValues l).find? (fun x => x.value = w.value) = some w :=
    removeDups_find husort hbsort (sortValues_sorted hu) w hw
  rw [find?_eq_head?_filter, sortValues_filter w.value hu] at h1
  rw [find?_eq_head?_filter]
  exact h1

theorem dedupFrom_covers (xs : List Value) :
    ∀ p : Value, ∀ v ∈ xs, ∃ w, (w ∈ p :: dedupFrom p xs) ∧ w.value = v.value := by
  induction xs with
  | nil => intro p v hv ; simp at hv
  | cons y ys ih =>
    intro p v hv
    unfold dedupFrom
    rcases List.mem_cons.mp hv with rfl | hv
    · rcases Decidable.em (v.value = p.value) with heq | hne
      · exact ⟨p, by simp, heq.symm⟩
      · rw [if_neg hne]
        exact ⟨v, by simp, rfl⟩
    · obtain ⟨w, hw, hwv⟩ := ih y v hv
      rcases List.mem_cons.mp hw with rfl | hw
      · rcases Decidable.em (w.value = p.value) with heq | hne
        · exact ⟨p, by simp, by rw [← hwv, heq]⟩
        · rw [if_neg hne]
          exact ⟨w, by simp, hwv⟩
      · rcases Decidable.em (y.value = p.value) with heq | hne
        · rw [if_pos heq]
          exact ⟨w, by simp [hw], hwv⟩
        · rw [if_neg hne]
          exact ⟨w, by simp [hw], hwv⟩

theorem removeDups_covers {l : List Value} :
    ∀ v ∈ l, ∃ w, w ∈ removeDups l ∧ w.value = v.value := by
  cases l with
  | nil => simp
  | cons x xs =>
    intro v hv
    unfold removeDups
    rcases List.mem_cons.mp hv with rfl | hv
    · exact ⟨v, by simp, rfl⟩
    · exact dedupFrom_covers xs x v hv

theorem mem_normalizeValues_of_mem {l : List Value} :
    ∀ w ∈ normalizeValues l, w ∈ l := by
  intro w hw
  exact (sortValues_perm l).mem_iff.mp
    (((removeDups_sublist (sortValues l)).mem hw))

/-- First constant of the duplicate example: `A = 1`, declared first. -/
def exA : Value := ⟨"A", "A", 1, false, "1"⟩

/-- Second constant of the duplicate example: `B = 1`, an alias of `A`. -/
def exB : Value := ⟨"B", "B", 1, false, "1"⟩

/-- Third constant of the duplicate example: `C = 2`. -/
def exC : Value := ⟨"C", "C", 2, false, "2"⟩

/-! ### Claim C3: stable sort and first-occurrence deduplication -/

/-- C3: normalization sorts ascending by value under the signedness-directed
comparison with a stable sort and drops every later duplicate: the output is
strictly ascending, each survivor is the first input constant carrying its
value (`find?` returns it), every input value is still represented, and the
example `{A=1, B=1, C=2}` with `A` declared first normalizes to `{A=1, C=2}`
with `B` gone. -/
theorem claim_C3 (s : Bool) (l : List Value) (hu : UniformSigned s l)
    (hb : BoundedVals l) :
    StrictSortedI s (normalizeValues l) ∧
    (∀ w ∈ normalizeValues l, w ∈ l) ∧
    (∀ w ∈ normalizeValues l, l.find? (fun x => x.value = w.value) = some w) ∧
    (∀ v ∈ l, ∃ w, w ∈ normalizeValues l ∧ w.value = v.value) ∧
    normalizeValues [exA, exB, exC] = [exA, exC] := by
  refine ⟨normalizeValues_strict hu hb, mem_normalizeValues_of_mem,
    normalizeValues_find hu hb, ?_, by decide⟩
  intro v hv
  exact removeDups_covers v ((sortValues_perm l).mem_iff.mpr hv)

/-- Witness for C3 at the duplicate example `{A=1, B=1, C=2}`. -/
theorem claim_C3_witness :
    normalizeValues [exA, exB, exC] = [exA, exC] ∧
    [exA, exB, exC].find? (fun x => x.value = exA.value) = some exA :=
  have h := claim_C3 false [exA, exB, exC]
    (by intro v hv
        simp only [List.mem_cons, List.not_mem_nil, or_false] at hv
        rcases hv with rfl | rfl | rfl <;> rfl)
    (by intro v hv
        simp only [List.mem_cons, List.not_mem_nil, or_false] at hv
        rcases hv with rfl | rfl | rfl <;> norm_num [exA, exB, exC, W64_eq])
  ⟨h.2.2.2.2, h.2.2.1 exA (by rw [h.2.2.2.2] ; decide)⟩

/-! ### Claim C1: strategy selection table -/

/-- C1: the layout strategy is a function of the run count and kind alone:
one `Enum` run gives `SingleRun`, one `Flag` run gives
`MultiRunFlagDecompose`, 2 through 8 runs give `MultiRunSwitch` (`Enum`) or
`MultiRunFlagDecompose` (`Flag`), and 9 or more runs give `SparseMap`; in
particular 8 runs take the multi-run path and 9 the map path. -/
theorem claim_C1 (n : Nat) (kind : Kind) (hn : 1 ≤ n) :
    (n = 1 → kind = Kind.Enum → selectStrategy n kind = Strategy.SingleRun) ∧
    (n = 1 → kind = Kind.Flag → selectStrategy n kind = Strategy.MultiRunFlagDecompose) ∧
    (2 ≤ n → n ≤ 8 → kind = Kind.Enum → selectStrategy n kind = Strategy.MultiRunSwitch) ∧
    (2 ≤ n → n ≤ 8 → kind = Kind.Flag → selectStrategy n kind = Strategy.MultiRunFlagDecompose) ∧
    (9 ≤ n → selectStrategy n kind = Strategy.SparseMap) ∧
    (n = 8 → kind = Kind.Enum → selectStrategy n kind = Strategy.MultiRunSwitch) ∧
    (n = 9 → selectStrategy n kind = Strategy.SparseMap) := by
  cases kind <;> refine ⟨?_, ?_, ?_, ?_, ?_, ?_, ?_⟩ <;> intros <;> subst_vars <;>
    simp only [selectStrategy] <;> split_ifs <;> (try simp_all) <;> omega

/-- Witness for C1 at the 8-run and 9-run boundary. -/
theorem claim_C1_witness :
    selectStrategy 8 Kind.Enum = Strategy.MultiRunSwitch ∧
    selectStrategy 9 Kind.Enum = Strategy.SparseMap := by
  refine ⟨(claim_C1 8 Kind.Enum (by norm_num)).2.2.2.2.2.1 rfl rfl, ?_⟩
  exact (claim_C1 9 Kind.Enum (by norm_num)).2.2.2.2.2.2 rfl

/-! ### Claim C2: the run partition -/

/-- C2: `splitIntoRuns` returns non-empty runs whose concatenation is exactly
the sorted, deduplicated value sequence; adjacent values inside a run satisfy
the kind's contiguity predicate (`Enum`: successor modulo `2 ^ 64`; `Flag`:
previous value zero or doubled), and at every boundary between two runs the
predicate fails, so each run is maximal. -/
theorem claim_C2 (values : List Value) (kind : Kind) :
    (splitIntoRuns values kind).flatten = normalizeValues values ∧
    (∀ r ∈ splitIntoRuns values kind, r ≠ []) ∧
    (∀ r ∈ splitIntoRuns values kind,
      List.Chain' (fun a b => contiguous kind a.value b.value = true) r) ∧
    List.Chain' (boundaryFail kind) (splitIntoRuns values kind) :=
  ⟨splitRuns_flatten kind (normalizeValues values),
   splitRuns_ne_nil kind (normalizeValues values),
   splitRuns_chain kind (normalizeValues values),
   splitRuns_boundary kind (normalizeValues values)⟩

/-! ### Layout builder: name blobs, offset tables and index widths -/

/-- The source's `usize`: bit width of the smallest unsigned integer type
holding `n` (8, 16 or 32). -/
def usize (n : Nat) : Nat := if n < 256 then 8 else if n < 65536 then 16 else 32

/-- Characters of the display name; the model of Go's name bytes. -/
def nameChars (v : Value) : List Char := v.name.toList

/-- Concatenation of the run's display names with no separators, the
`_T_name` blob built by `createIndexAndNameDecl`. -/
def runBlob (run : List Value) : List Char := (run.map nameChars).flatten

/-- The `indexes` slice of `createIndexAndNameDecl`: the cumulative blob
length after each name is appended. -/
def runIndexes (acc : Nat) : List Value → List Nat
  | [] => []
  | v :: vs => (acc + (nameChars v).length) :: runIndexes (acc + (nameChars v).length) vs

/-- The emitted `_T_index` array `{0, indexes...}`. -/
def runOffsets (run : List Value) : List Nat := 0 :: runIndexes 0 run

/-- Sum of the display-name lengths of a list of values. -/
def sumLens (l : List Value) : Nat := (l.map (fun v => (nameChars v).length)).sum

/-- One run's emitted declarations: the index offsets, the index element
width from `usize` of this run's blob length, and the name blob. -/
structure IndexAndName where
  offsets : List Nat
  width : Nat
  blob : List Char
deriving DecidableEq, Repr

/-- The source's `createIndexAndNameDecl` for one run. -/
def createIndexAndNameDecl (run : List Value) : IndexAndName :=
  { offsets := runOffsets run
    width := usize (runBlob run).length
    blob := runBlob run }

/-- The source's `declareIndexAndNameVars` (multi-run declarer): every run
contributes its name blob, but only runs of length other than one
contribute an index array. -/
def declareIndexAndNameVars (runs : List (List Value)) :
    List IndexAndName × List (List Char) :=
  ((runs.filter (fun r => r.length != 1)).map createIndexAndNameDecl,
   runs.map runBlob)

/-- The source's `declareIndexAndNameVar` (single-run declarer): it always
emits both the name constant and the index array. -/
def declareIndexAndNameVar (run : List Value) : IndexAndName :=
  createIndexAndNameDecl run

/-- Go slicing `s[a:b]` on the character-list model. -/
def sliceChars (s : List Char) (a b : Nat) : List Char := (s.take b).drop a

/-- Go slicing producing a string. -/
def sliceStr (s : List Char) (a b : Nat) : String := String.mk (sliceChars s a b)

/-- The name slice `_T_name_i[_T_index_i[j]:_T_index_i[j+1]]`. -/
def runSlice (run : List Value) (j : Nat) : String :=
  sliceStr (runBlob run) ((runOffsets run).getD j 0) ((runOffsets run).getD (j + 1) 0)

theorem strMk_toList (s : String) : String.mk s.toList = s := by cases s ; rfl

theorem runIndexes_length (run : List Value) : ∀ acc, (runIndexes acc run).length = run.length := by
  induction run with
  | nil => intro acc ; rfl
  | cons v vs ih => intro acc ; simp [runIndexes, ih]

theorem runOffsets_length (run : List Value) : (runOffsets run).length = run.length + 1 := by
  simp [runOffsets, runIndexes_length]

theorem runBlob_length (run : List Value) : (runBlob run).length = sumLens run := by
  induction run with
  | nil => rfl
  | cons v vs ih => simp [runBlob, sumLens, nameChars] at * ; omega

theorem sumLens_cons (v : Value) (vs : List Value) :
    sumLens (v :: vs) = (nameChars v).length + sumLens vs := by
  simp [sumLens]

theorem runIndexes_getD (run : List Value) :
    ∀ acc j, j < run.length →
      (runIndexes acc run).getD j 0 = acc + sumLens (run.take (j + 1)) := by
  induction run with
  | nil => intro acc j h ; simp at h
  | cons v vs ih =>
    intro acc j h
    cases j with
    | zero => simp [runIndexes, sumLens]
    | succ j =>
      have hj : j < vs.length := by simpa using h
      simp only [runIndexes, List.getD_cons_succ, ih _ j hj, List.take_succ_cons,
        sumLens_cons]
      omega

theorem runOffsets_getD (run : List Value) :
    ∀ j, j ≤ run.length → (runOffsets run).getD j 0 = sumLens (run.take j) := by
  intro j hj
  cases j with
  | zero => simp [runOffsets, sumLens]
  | succ j =>
    have hj' : j < run.length := by omega
    simp only [runOffsets, List.getD_cons_succ]
    rw [runIndexes_getD run 0 j hj']
    omega

theorem sumLens_take_succ (run : List Value) (j : Nat) (hj : j < run.length) :
    sumLens (run.take (j + 1)) =
      sumLens (run.take j) + (nameChars (run.getD j default)).length := by
  induction run generalizing j with
  | nil => simp at hj
  | cons v vs ih =>
    cases j with
    | zero => simp [sumLens]
    | succ j =>
      have hj' : j < vs.length := by simpa using hj
      simp only [List.take_succ_cons, sumLens_cons, List.getD_cons_succ, ih j hj']
      omega

theorem runBlob_drop (run : List Value) :
    ∀ j, j ≤ run.length →
      (runBlob run).drop (sumLens (run.take j)) = ((run.drop j).map nameChars).flatten := by
  induction run with
  | nil => intro j hj ; simp [runBlob, sumLens]
  | cons v vs ih =>
    intro j hj
    cases j with
    | zero => simp [runBlob, sumLens]
    | succ j =>
      have hj' : j ≤ vs.length := by simpa using hj
      have : runBlob (v :: vs) = nameChars v ++ runBlob vs := by simp [runBlob]
      rw [this, List.take_succ_cons, sumLens_cons]
      rw [show (nameChars v).length + sumLens (vs.take j)
            = (nameChars v).length + sumLens (vs.take j) from rfl]
      rw [List.drop_append ((sumLens (vs.take j)))]
      simpa using ih j hj'

theorem sliceChars_drop_take (s : List Char) (a k : Nat) :
    sliceChars s a (a + k) = (s.drop a).take k := by
  unfold sliceChars
  rw [List.drop_take]
  congr 1
  omega

/-- The central slice fact: the `j`-th index window of a run's blob is
exactly the `j`-th display name. -/
theorem runSlice_eq (run : List Value) (j : Nat) (hj : j < run.length) :
    runSlice run j = (run.getD j default).name := by
  unfold runSlice
  rw [runOffsets_getD run j (le_of_lt hj), runOffsets_getD run (j + 1) hj,
    sumLens_take_succ run j hj]
  unfold sliceStr
  rw [sliceChars_drop_take, runBlob_drop run j (le_of_lt hj)]
  have hdrop : run.drop j = run.getD j default :: run.drop (j + 1) := by
    rw [List.getD_eq_getElem run default hj]
    exact List.drop_eq_getElem_cons hj
  rw [hdrop]
  simp only [List.map_cons, List.flatten_cons]
  rw [List.take_left']
  · exact strMk_toList _
  · rfl

/-- A 150-character display name, to drive one run's blob past 255 bytes. -/
def longName : String := String.mk (List.replicate 150 'a')

/-- First member of the wide run of the width example. -/
def wA : Value := ⟨"WA", longName, 10, false, "10"⟩

/-- Second member of the wide run of the width example. -/
def wB : Value := ⟨"WB", longName, 11, false, "11"⟩

/-- First member of the narrow run of the width example. -/
def wC : Value := ⟨"WC", "c", 20, false, "20"⟩

/-- Second member of the narrow run of the width example. -/
def wD : Value := ⟨"WD", "d", 21, false, "21"⟩

/-! ### Claim C7: blob, offsets and index width -/

set_option maxRecDepth 4000 in
/-- C7 counterexample: the index element width is chosen per run from that
run's own blob length, not once from the largest run: a 300-byte run next to
a 2-byte run yields widths 16 and 8, not a uniform 16.  Moreover the
single-run declarer emits an index array even for a one-member run. -/
theorem claim_C7_counterexample :
    ((declareIndexAndNameVars [[wA, wB], [wC, wD]]).1.map (fun d => d.width)) = [16, 8] ∧
    [16, 8] ≠ [16, 16] ∧
    (declareIndexAndNameVar [exA]).offsets = [0, 1] := by
  refine ⟨by decide, by decide, by decide⟩

/-- C7 amended: for each run the blob is the separator-free concatenation of
its display names and the offset list has length `len(run)+1`, starts at 0
and holds the cumulative name lengths; the index element width of a run is
the smallest of 8, 16 and 32 bits whose unsigned range exceeds that run's
own blob length (not the largest run's); the multi-run declarer omits the
index array exactly for one-member runs, while the single-run declarer
always emits it. -/
theorem claim_C7_amended (run : List Value) (runs : List (List Value)) (j : Nat)
    (hj : j ≤ run.length) (hsmall : (runBlob run).length < 2 ^ 32) :
    (createIndexAndNameDecl run).offsets.length = run.length + 1 ∧
    (createIndexAndNameDecl run).offsets.getD 0 0 = 0 ∧
    (createIndexAndNameDecl run).offsets.getD j 0 = sumLens (run.take j) ∧
    (createIndexAndNameDecl run).blob = (run.map nameChars).flatten ∧
    (createIndexAndNameDecl run).width = usize (runBlob run).length ∧
    (runBlob run).length < 2 ^ (createIndexAndNameDecl run).width ∧
    ((createIndexAndNameDecl run).width = 8 ∨
      ((createIndexAndNameDecl run).width = 16 ∧ 2 ^ 8 ≤ (runBlob run).length) ∨
      ((createIndexAndNameDecl run).width = 32 ∧ 2 ^ 16 ≤ (runBlob run).length)) ∧
    (declareIndexAndNameVars runs).1 =
      (runs.filter (fun r => r.length != 1)).map createIndexAndNameDecl ∧
    declareIndexAndNameVar run = createIndexAndNameDecl run := by
  refine ⟨runOffsets_length run, by simp [createIndexAndNameDecl, runOffsets],
    runOffsets_getD run j hj, rfl, rfl, ?_, ?_, rfl, rfl⟩
  · simp only [createIndexAndNameDecl, usize]
    split_ifs <;> omega
  · simp only [createIndexAndNameDecl, usize]
    split_ifs with h1 h2
    · exact Or.inl rfl
    · exact Or.inr (Or.inl ⟨rfl, by omega⟩)
    · exact Or.inr (Or.inr ⟨rfl, by omega⟩)

/-- Witness for the amended C7 on the narrow two-member run. -/
theorem claim_C7_amended_witness :
    (createIndexAndNameDecl [wC, wD]).offsets.getD 2 0 = sumLens ([wC, wD].take 2) ∧
    (createIndexAndNameDecl [wC, wD]).offsets.length = 2 + 1 := by
  have h := claim_C7_amended [wC, wD] [[wC, wD]] 2 (by decide) (by decide)
  exact ⟨h.2.2.1, h.1⟩

/-! ### Decode semantics of the generated enum String methods -/

/-- Subtraction in the 64-bit value domain (`i -= first` of the generated
code), with unsigned wraparound. -/
def subW (a b : Nat) : Nat := (a + (W64 - b % W64)) % W64

/-- Addition in the 64-bit value domain (`i + first` in the fallback of the
offset variant). -/
def addW (a b : Nat) : Nat := (a + b) % W64

/-- The bounds guard of the generated single-run method: `i < 0 ||` (signed
only) `i >= T(len(index)-1)`, compared in the receiver type. -/
def outOfRange (signed : Bool) (i n : Nat) : Bool :=
  if signed then decide (toInt64 i < 0) || decide ((n : Int) ≤ toInt64 i)
  else decide (n ≤ i)

/-- The out-of-range fallback `"T(" + strconv.FormatInt(int64(i), 10) + ")"`:
the bit pattern is always rendered through its `int64` reading. -/
def fallbackStr (typeName : String) (i : Nat) : String :=
  typeName ++ "(" ++ toString (toInt64 i) ++ ")"

/-- Decode semantics of `stringOneRun` / `stringOneRunWithOffset`: when the
run starts at value 0 the input indexes the offset table directly, otherwise
the run's first value is subtracted first. -/
def decodeOneRun (typeName : String) (run : List Value) (i : Nat) : String :=
  if (run.headD default).value = 0 then
    if outOfRange (run.headD default).signed i run.length then fallbackStr typeName i
    else runSlice run i
  else if outOfRange (run.headD default).signed (subW i (run.headD default).value)
      run.length then
    fallbackStr typeName (addW (subW i (run.headD default).value) (run.headD default).value)
  else runSlice run (subW i (run.headD default).value)

/-- The range test of one `case` of the `buildMultipleRuns` switch: for an
unsigned run starting at 0 just `i <= last`, otherwise
`first <= i && i <= last` in the receiver type. -/
def inRangeRun (run : List Value) (i : Nat) : Bool :=
  if (run.headD default).value = 0 && !(run.headD default).signed then
    decide (i ≤ (run.getLastD default).value)
  else
    decide (interp (run.headD default).signed (run.headD default).value ≤
      interp (run.headD default).signed i) &&
    decide (interp (run.headD default).signed i ≤
      interp (run.headD default).signed (run.getLastD default).value)

/-- Decode semantics of the `buildMultipleRuns` switch: cases are tried in
run order; a one-member run compares for equality and returns the full name
constant; a longer run range-tests, subtracts its first value unless it is
0, and slices; the default case is the formatted fallback. -/
def decodeMultiRuns (typeName : String) (i : Nat) : List (List Value) → String
  | [] => fallbackStr typeName i
  | run :: rest =>
    if run.length = 1 then
      if i = (run.headD default).value then String.mk (runBlob run)
      else decodeMultiRuns typeName i rest
    else if inRangeRun run i then
      runSlice run (if (run.headD default).value = 0 then i else subW i (run.headD default).value)
    else decodeMultiRuns typeName i rest

/-- The value-to-name entries of `buildMap`: each retained value maps to its
window of the global concatenated name blob. -/
def mapEntriesAux (blob : List Char) (n : Nat) : List Value → List (Nat × String)
  | [] => []
  | v :: vs =>
    (v.value, sliceStr blob n (n + (nameChars v).length)) ::
      mapEntriesAux blob (n + (nameChars v).length) vs

/-- The single global blob of `declareNameVars`: all names of all runs. -/
def globalBlob (runs : List (List Value)) : List Char := runBlob runs.flatten

/-- The `_T_map` table in declaration order. -/
def mapEntries (runs : List (List Value)) : List (Nat × String) :=
  mapEntriesAux (globalBlob runs) 0 runs.flatten

/-- Decode semantics of `stringMap`: map hit returns the stored name, miss
returns the formatted fallback. -/
def decodeMap (typeName : String) (runs : List (List Value)) (i : Nat) : String :=
  match (mapEntries runs).find? (fun e => e.1 = i) with
  | some e => e.2
  | none => fallbackStr typeName i

/-- The enum decode the generated `String` method implements, dispatched the
way `generate` dispatches on the run count. -/
def decodeEnum (typeName : String) (runs : List (List Value)) (i : Nat) : String :=
  if runs.length = 1 then decodeOneRun typeName (runs.headD []) i
  else if runs.length ≤ 8 then decodeMultiRuns typeName i runs
  else decodeMap typeName runs i

/-! ### Arithmetic bridges between patterns and interpretations -/

theorem interp_cases (s : Bool) (x : Nat) (_hx : x < W64) :
    interp s x = (x : Int) ∨ interp s x = (x : Int) - (W64 : Int) := by
  cases s with
  | false => exact Or.inl rfl
  | true =>
    by_cases h : x < W63
    · exact Or.inl (by simp [interp, toInt64, h])
    · exact Or.inr (by simp [interp, toInt64, h])

theorem interp_succ {s : Bool} {a b : Nat} (ha : a < W64) (hb : b < W64)
    (hlt : interp s a < interp s b) (hstep : b = (a + 1) % W64) :
    interp s b = interp s a + 1 := by
  cases s with
  | false =>
    simp only [interp, Bool.false_eq_true, if_false] at hlt ⊢
    simp only [W64_eq] at ha hb hstep
    omega
  | true =>
    simp only [interp, if_true, toInt64, W63_eq, W64_eq] at hlt ⊢
    simp only [W64_eq] at ha hb hstep
    split_ifs at hlt ⊢ <;> omega

theorem interp_zero (s : Bool) : interp s 0 = 0 := by
  cases s with
  | false => rfl
  | true => norm_num [interp, toInt64, W63_eq]

theorem interp_nonneg_small {s : Bool} {x : Nat} (hx : x < W63) : interp s x = (x : Int) := by
  cases s with
  | false => rfl
  | true => simp [interp, toInt64, hx]

theorem interp_eq_nat {s : Bool} {x : Nat} {j : Nat} (hx : x < W64) (hj : j < W63)
    (h : interp s x = (j : Int)) : x = j := by
  rcases interp_cases s x hx with h1 | h1 <;> simp only [W64_eq, W63_eq] at * <;> omega

theorem subW_eq_of_interp {s : Bool} {i first j : Nat} (hi : i < W64) (hf : first < W64)
    (hj : j < W64) (h : interp s i = interp s first + j) : subW i first = j := by
  unfold subW
  rcases interp_cases s i hi with h1 | h1 <;> rcases interp_cases s first hf with h2 | h2 <;>
    simp only [W64_eq] at * <;> omega

theorem subW_add_cancel {i first : Nat} (hi : i < W64) (_hf : first < W64) :
    addW (subW i first) first = i := by
  unfold subW addW
  rw [W64_eq] at hi ⊢
  omega

theorem subW_index_mem {i first j : Nat} (hi : i < W64) (_hf : first < W64)
    (h : subW i first = j) : i = (first + j) % W64 := by
  unfold subW at h
  simp only [W64_eq] at *
  omega

/-! ### Structure of enum runs: consecutive interpreted values -/

theorem getD_mem (l : List Value) (j : Nat) (hj : j < l.length) :
    l.getD j default ∈ l := by
  rw [List.getD_eq_getElem l default hj]
  exact List.getElem_mem hj

theorem headD_eq_getD (l : List Value) (hne : l ≠ []) :
    l.headD default = l.getD 0 default := by
  cases l with
  | nil => exact absurd rfl hne
  | cons v vs => rfl

theorem getLastD_irrel (l : List Value) (a b : Value) (h : l ≠ []) :
    l.getLastD a = l.getLastD b := by
  cases l with
  | nil => exact absurd rfl h
  | cons v vs => simp only [List.getLastD_cons]

theorem getLastD_eq_getD : ∀ (l : List Value) (a : Value), l ≠ [] →
    l.getLastD a = l.getD (l.length - 1) default := by
  intro l
  induction l with
  | nil => intro a h ; exact absurd rfl h
  | cons v vs ih =>
    intro a _
    cases vs with
    | nil => rfl
    | cons w ws =>
      rw [List.getLastD_cons, ih v (by simp)]
      simp

theorem getLastD_mem (l : List Value) (a : Value) (hne : l ≠ []) :
    l.getLastD a ∈ l := by
  rw [getLastD_eq_getD l a hne]
  apply getD_mem
  cases l with
  | nil => exact absurd rfl hne
  | cons v vs => simp

/-- Along an enum run the interpreted values are consecutive integers. -/
theorem chain_consecutive {s : Bool} :
    ∀ run : List Value,
      List.Chain' (fun a b => contiguous Kind.Enum a.value b.value = true) run →
      StrictSortedI s run → BoundedVals run →
      ∀ j, j < run.length →
        interp s (run.getD j default).value = interp s (run.getD 0 default).value + j := by
  intro run
  induction run with
  | nil => intro _ _ _ j hj ; simp at hj
  | cons v vs ih =>
    intro hch hsort hb j hj
    cases j with
    | zero => simp
    | succ j =>
      have hj' : j < vs.length := by simpa using hj
      cases vs with
      | nil => simp at hj'
      | cons w ws =>
        have hcontig : contiguous Kind.Enum v.value w.value = true :=
          (List.chain'_cons.mp hch).1
        have hstep : w.value = (v.value + 1) % W64 := by
          simpa [contiguous] using hcontig
        have hlt : interp s v.value < interp s w.value :=
          List.rel_of_pairwise_cons hsort (by simp)
        have hsucc : interp s w.value = interp s v.value + 1 :=
          interp_succ (hb v (by simp)) (hb w (by simp)) hlt hstep
        have hIH := ih (List.chain'_cons.mp hch).2 hsort.of_cons
          (fun x hx => hb x (by simp [hx])) j hj'
        simp only [List.getD_cons_succ, List.getD_cons_zero] at hIH ⊢
        rw [hIH]
        simp only [List.getD_cons_zero] at hsucc ⊢
        push_cast
        omega

/-- Pattern form of consecutiveness: the `j`-th run value is the first value
plus `j`, modulo `2 ^ 64`. -/
theorem chain_value {s : Bool} (run : List Value)
    (hch : List.Chain' (fun a b => contiguous Kind.Enum a.value b.value = true) run)
    (hsort : StrictSortedI s run) (hb : BoundedVals run)
    (j : Nat) (hj : j < run.length) :
    (run.getD j default).value = ((run.getD 0 default).value + j) % W64 := by
  have hlen0 : 0 < run.length := Nat.lt_of_le_of_lt (Nat.zero_le j) hj
  have h := chain_consecutive run hch hsort hb j hj
  have h0 := interp_cases s (run.getD 0 default).value (hb _ (getD_mem run 0 hlen0))
  have hjc := interp_cases s (run.getD j default).value (hb _ (getD_mem run j hj))
  have hb0 : (run.getD 0 default).value < W64 := hb _ (getD_mem run 0 hlen0)
  have hbj : (run.getD j default).value < W64 := hb _ (getD_mem run j hj)
  rcases h0 with h0 | h0 <;> rcases hjc with hjc | hjc <;>
    simp only [W64_eq] at h0 hjc hb0 hbj ⊢ <;> omega

theorem sorted_head_le {s : Bool} {run : List Value} (hsort : StrictSortedI s run) :
    ∀ v ∈ run, interp s (run.headD default).value ≤ interp s v.value := by
  intro v hv
  cases run with
  | nil => simp at hv
  | cons w ws =>
    rcases List.mem_cons.mp hv with rfl | hv
    · exact le_refl _
    · exact le_of_lt (List.rel_of_pairwise_cons hsort hv)

theorem sorted_le_last {s : Bool} {run : List Value} (hsort : StrictSortedI s run) :
    ∀ v ∈ run, interp s v.value ≤ interp s (run.getLastD default).value := by
  intro v hv
  have hne : run ≠ [] := by rintro rfl ; simp at hv
  rw [getLastD_eq_getD run default hne]
  obtain ⟨idx, hidx, hval⟩ := List.mem_iff_getElem.mp hv
  rcases Nat.lt_or_ge idx (run.length - 1) with h | h
  · have hrel := (List.pairwise_iff_getElem.mp hsort) idx (run.length - 1) hidx
      (by omega) h
    rw [List.getD_eq_getElem run default (by omega), ← hval]
    exact le_of_lt hrel
  · have hidx' : idx = run.length - 1 := by omega
    subst hidx'
    rw [List.getD_eq_getElem run default (by omega), ← hval]

/-- Any value lying between a run's first and last interpreted values is one
of the run's values. -/
theorem range_mem {s : Bool} (run : List Value) (hne : run ≠ [])
    (hch : List.Chain' (fun a b => contiguous Kind.Enum a.value b.value = true) run)
    (hsort : StrictSortedI s run) (hb : BoundedVals run)
    (i : Nat) (hi : i < W64)
    (h1 : interp s (run.headD default).value ≤ interp s i)
    (h2 : interp s i ≤ interp s (run.getLastD default).value) :
    ∃ j, j < run.length ∧ (run.getD j default).value = i := by
  have hlen0 : 0 < run.length := List.length_pos.mpr hne
  rw [headD_eq_getD run hne] at h1
  rw [getLastD_eq_getD run default hne] at h2
  have hlast := chain_consecutive run hch hsort hb (run.length - 1) (by omega)
  rw [hlast] at h2
  set d : Int := interp s i - interp s (run.getD 0 default).value with hd
  have hd0 : 0 ≤ d := by omega
  have hdlt : d < (run.length : Int) := by
    have : (run.length - 1 : Nat) = ((run.length : Int) - 1).toNat := by omega
    omega
  refine ⟨d.toNat, by omega, ?_⟩
  have hj := chain_consecutive run hch hsort hb d.toNat (by omega)
  have : interp s ((run.getD d.toNat default)).value = interp s i := by
    rw [hj]
    omega
  exact interp_inj (hb _ (getD_mem run d.toNat (by omega))) hi this

/-! ### Correctness of the single-run decode -/

theorem toInt64_small {j : Nat} (hj : j < W63) : toInt64 j = (j : Int) := by
  unfold toInt64 ; rw [if_pos hj]

theorem outOfRange_false_of_lt {s : Bool} {j n : Nat} (hj : j < n) (hjW : j < W63) :
    outOfRange s j n = false := by
  unfold outOfRange
  cases s with
  | false => simp [Nat.not_le.mpr hj]
  | true =>
    simp only [if_true, toInt64_small hjW, Bool.or_eq_false_iff,
      decide_eq_false_iff_not, not_lt, not_le]
    exact ⟨Int.natCast_nonneg j, by exact_mod_cast hj⟩

theorem lt_of_outOfRange_false {s : Bool} {j n : Nat} (hjW : j < W64)
    (h : outOfRange s j n = false) : j < n ∧ j < W63 ∨ s = false ∧ j < n := by
  unfold outOfRange at h
  cases s with
  | false =>
    simp only [Bool.false_eq_true, if_false, decide_eq_false_iff_not, not_le] at h
    exact Or.inr ⟨rfl, h⟩
  | true =>
    simp only [if_true, Bool.or_eq_false_iff, decide_eq_false_iff_not, not_lt,
      not_le] at h
    obtain ⟨h1, h2⟩ := h
    have hjW63 : j < W63 := by
      by_contra hge
      push_neg at hge
      have : toInt64 j = (j : Int) - (W64 : Int) := by
        unfold toInt64 ; rw [if_neg (by omega)]
      rw [this] at h1
      rw [W64_eq] at hjW
      simp only [W64_eq] at h1
      omega
    rw [toInt64_small hjW63] at h2
    exact Or.inl ⟨by exact_mod_cast h2, hjW63⟩

theorem headD_mem (run : List Value) (hne : run ≠ []) : run.headD default ∈ run := by
  cases run with
  | nil => exact absurd rfl hne
  | cons v vs => simp

theorem length_le_flatten_length {run : List Value} :
    ∀ {runs : List (List Value)}, run ∈ runs → run.length ≤ runs.flatten.length := by
  intro runs
  induction runs with
  | nil => intro h ; simp at h
  | cons r rest ih =>
    intro h
    rcases List.mem_cons.mp h with rfl | h
    · simp
    · have := ih h
      simp only [List.flatten_cons, List.length_append]
      omega

/-- Round trip through the generated single-run method: each run member's
value decodes to its display name. -/
theorem decodeOneRun_mem {s : Bool} (typeName : String) (run : List Value)
    (hne : run ≠ [])
    (hch : List.Chain' (fun a b => contiguous Kind.Enum a.value b.value = true) run)
    (hsort : StrictSortedI s run) (hu : UniformSigned s run) (hb : BoundedVals run)
    (hlen : run.length < W63) :
    ∀ v ∈ run, decodeOneRun typeName run v.value = v.name := by
  intro v hv
  have hfmem : run.headD default ∈ run := headD_mem run hne
  have hs : (run.headD default).signed = s := hu _ hfmem
  obtain ⟨idx, hidx, hval⟩ := List.mem_iff_getElem.mp hv
  have hcons := chain_consecutive run hch hsort hb idx hidx
  rw [List.getD_eq_getElem run default hidx, hval, ← headD_eq_getD run hne] at hcons
  have hidxW : idx < W63 := lt_trans hidx hlen
  unfold decodeOneRun
  by_cases hz : (run.headD default).value = 0
  · rw [if_pos hz]
    have hf0 : interp s (run.headD default).value = 0 := by
      rw [hz] ; exact interp_zero s
    have hvidx : interp s v.value = (idx : Int) := by rw [hcons, hf0] ; ring
    have hvv : v.value = idx := interp_eq_nat (hb v hv) hidxW hvidx
    rw [hs, hvv, outOfRange_false_of_lt hidx hidxW]
    simp only [Bool.false_eq_true, if_false]
    rw [runSlice_eq run idx hidx, List.getD_eq_getElem run default hidx, hval]
  · rw [if_neg hz]
    have hsub : subW v.value (run.headD default).value = idx :=
      subW_eq_of_interp (hb v hv) (hb _ hfmem) (lt_trans hidxW W63_lt_W64) hcons
    rw [hs, hsub, outOfRange_false_of_lt hidx hidxW]
    simp only [Bool.false_eq_true, if_false]
    rw [runSlice_eq run idx hidx, List.getD_eq_getElem run default hidx, hval]

/-- Fallback of the generated single-run method: a value outside the run
decodes to the formatted fallback of its own bit pattern. -/
theorem decodeOneRun_notmem {s : Bool} (typeName : String) (run : List Value)
    (hne : run ≠ [])
    (hch : List.Chain' (fun a b => contiguous Kind.Enum a.value b.value = true) run)
    (hsort : StrictSortedI s run) (hu : UniformSigned s run) (hb : BoundedVals run)
    (_hlen : run.length < W63) (i : Nat) (hi : i < W64)
    (hnot : ∀ v ∈ run, v.value ≠ i) :
    decodeOneRun typeName run i = fallbackStr typeName i := by
  have hfmem : run.headD default ∈ run := headD_mem run hne
  have hs : (run.headD default).signed = s := hu _ hfmem
  have hmem_of_idx : ∀ j, j < run.length → ((run.headD default).value + j) % W64 = i → False := by
    intro j hj hval
    have hcv := chain_value run hch hsort hb j hj
    rw [← headD_eq_getD run hne] at hcv
    exact hnot _ (getD_mem run j hj) (by rw [hcv, hval])
  unfold decodeOneRun
  by_cases hz : (run.headD default).value = 0
  · rw [if_pos hz]
    rw [hs]
    cases hguard : outOfRange s i run.length with
    | true => rfl
    | false =>
      exfalso
      rcases lt_of_outOfRange_false hi hguard with ⟨h1, _⟩ | ⟨_, h1⟩ <;>
      · refine hmem_of_idx i h1 ?_
        rw [hz]
        simp only [Nat.zero_add]
        exact Nat.mod_eq_of_lt hi
  · rw [if_neg hz]
    rw [hs]
    cases hguard : outOfRange s (subW i (run.headD default).value) run.length with
    | true =>
      simp only [if_true]
      rw [subW_add_cancel hi (hb _ hfmem)]
    | false =>
      exfalso
      have hsubW : subW i (run.headD default).value < W64 := by
        unfold subW
        exact Nat.mod_lt _ W64_pos
      rcases lt_of_outOfRange_false hsubW hguard with ⟨h1, _⟩ | ⟨_, h1⟩ <;>
        exact hmem_of_idx _ h1 (subW_index_mem hi (hb _ hfmem) rfl).symm

/-! ### Correctness of the multi-run switch decode -/

theorem eq_singleton_of_length_one {run : List Value} (h : run.length = 1) :
    run = [run.headD default] := by
  cases run with
  | nil => simp at h
  | cons v vs =>
    cases vs with
    | nil => rfl
    | cons w ws => simp at h

theorem strMk_runBlob_singleton (w : Value) : String.mk (runBlob [w]) = w.name := by
  have : runBlob [w] = nameChars w := by simp [runBlob]
  rw [this]
  exact strMk_toList w.name

/-- The range test passes for every member of a run. -/
theorem inRangeRun_mem {s : Bool} {run : List Value} (hne : run ≠ [])
    (hsort : StrictSortedI s run) (hu : UniformSigned s run)
    {v : Value} (hv : v ∈ run) : inRangeRun run v.value = true := by
  have hs : (run.headD default).signed = s := hu _ (headD_mem run hne)
  unfold inRangeRun
  by_cases hc : ((run.headD default).value = 0 && !(run.headD default).signed) = true
  · rw [if_pos hc]
    simp only [Bool.and_eq_true, decide_eq_true_eq, Bool.not_eq_true'] at hc
    have hsf : s = false := by rw [← hs] ; exact hc.2
    have hle := sorted_le_last hsort v hv
    rw [hsf] at hle
    simp only [interp, Bool.false_eq_true, if_false] at hle
    simpa using hle
  · rw [if_neg hc]
    rw [hs]
    simp only [Bool.and_eq_true, decide_eq_true_eq]
    exact ⟨sorted_head_le hsort v hv, sorted_le_last hsort v hv⟩

/-- The range test fails for any value interpreted above the whole run. -/
theorem inRangeRun_above {s : Bool} {run : List Value} (hne : run ≠ [])
    (_hsort : StrictSortedI s run) (hu : UniformSigned s run)
    {i : Nat} (habove : ∀ a ∈ run, interp s a.value < interp s i) :
    inRangeRun run i = false := by
  have hs : (run.headD default).signed = s := hu _ (headD_mem run hne)
  have hlast : run.getLastD default ∈ run := getLastD_mem run default hne
  cases hx : inRangeRun run i with
  | false => rfl
  | true =>
    exfalso
    unfold inRangeRun at hx
    by_cases hc : ((run.headD default).value = 0 && !(run.headD default).signed) = true
    · rw [if_pos hc] at hx
      simp only [Bool.and_eq_true, decide_eq_true_eq, Bool.not_eq_true'] at hc
      have hsf : s = false := by rw [← hs] ; exact hc.2
      have hgt := habove _ hlast
      rw [hsf] at hgt
      simp only [interp, Bool.false_eq_true, if_false] at hgt
      simp only [decide_eq_true_eq] at hx
      have : (run.getLastD default).value < i := by exact_mod_cast hgt
      omega
    · rw [if_neg hc] at hx
      rw [hs] at hx
      simp only [Bool.and_eq_true, decide_eq_true_eq] at hx
      exact absurd hx.2 (not_le.mpr (habove _ hlast))

/-- Round trip through the generated multi-run switch: each retained value
decodes to its display name. -/
theorem decodeMultiRuns_mem {s : Bool} (typeName : String) :
    ∀ runs : List (List Value),
      (∀ r ∈ runs, r ≠ []) →
      (∀ r ∈ runs, List.Chain' (fun a b => contiguous Kind.Enum a.value b.value = true) r) →
      StrictSortedI s runs.flatten → UniformSigned s runs.flatten →
      BoundedVals runs.flatten → runs.flatten.length < W63 →
      ∀ v ∈ runs.flatten, decodeMultiRuns typeName v.value runs = v.name := by
  intro runs
  induction runs with
  | nil => intro _ _ _ _ _ _ v hv ; simp at hv
  | cons run rest ih =>
    intro hnil hch hsort hu hb hlen v hv
    simp only [List.flatten_cons] at hsort hu hb hlen hv
    obtain ⟨hsrun, hsrest, hcross⟩ := List.pairwise_append.mp hsort
    have hurun : UniformSigned s run := fun x hx => hu x (by simp [hx])
    have hurest : UniformSigned s rest.flatten := fun x hx => hu x (by simp [hx])
    have hbrun : BoundedVals run := fun x hx => hb x (by simp [hx])
    have hbrest : BoundedVals rest.flatten := fun x hx => hb x (by simp [hx])
    have hlenapp : run.length + rest.flatten.length < W63 := by
      rw [List.length_append] at hlen ; exact hlen
    have hnerun : run ≠ [] := hnil run (by simp)
    have hchrun := hch run (by simp)
    have hs : (run.headD default).signed = s := hurun _ (headD_mem run hnerun)
    rcases List.mem_append.mp hv with hvrun | hvrest
    · obtain ⟨idx, hidx, hval⟩ := List.mem_iff_getElem.mp hvrun
      have hcons := chain_consecutive run hchrun hsrun hbrun idx hidx
      rw [List.getD_eq_getElem run default hidx, hval,
        ← headD_eq_getD run hnerun] at hcons
      have hidxW : idx < W63 := by omega
      unfold decodeMultiRuns
      by_cases h1 : run.length = 1
      · rw [if_pos h1]
        have hrun1 : run = [run.headD default] := eq_singleton_of_length_one h1
        have hveq : v = run.headD default := by
          rw [hrun1] at hvrun ; simpa using hvrun
        rw [if_pos (by rw [hveq]), hrun1, hveq]
        exact strMk_runBlob_singleton _
      · rw [if_neg h1, if_pos (inRangeRun_mem hnerun hsrun hurun hvrun)]
        by_cases hz : (run.headD default).value = 0
        · rw [if_pos hz]
          have hf0 : interp s (run.headD default).value = 0 := by
            rw [hz] ; exact interp_zero s
          have hvidx : interp s v.value = (idx : Int) := by rw [hcons, hf0] ; ring
          have hvv : v.value = idx := interp_eq_nat (hbrun v hvrun) hidxW hvidx
          rw [hvv, runSlice_eq run idx hidx, List.getD_eq_getElem run default hidx,
            hval]
        · rw [if_neg hz]
          have hsub : subW v.value (run.headD default).value = idx :=
            subW_eq_of_interp (hbrun v hvrun) (hbrun _ (headD_mem run hnerun))
              (lt_trans hidxW W63_lt_W64) hcons
          rw [hsub, runSlice_eq run idx hidx, List.getD_eq_getElem run default hidx,
            hval]
    · have hgt : ∀ a ∈ run, interp s a.value < interp s v.value :=
        fun a ha => hcross a ha v hvrest
      have hrec := ih (fun r hr => hnil r (by simp [hr]))
        (fun r hr => hch r (by simp [hr])) hsrest hurest hbrest (by omega) v hvrest
      unfold decodeMultiRuns
      by_cases h1 : run.length = 1
      · rw [if_pos h1]
        have hne : ¬ (v.value = (run.headD default).value) := by
          intro heq
          have := hgt _ (headD_mem run hnerun)
          rw [heq] at this
          exact lt_irrefl _ this
        rw [if_neg hne]
        exact hrec
      · rw [if_neg h1, inRangeRun_above hnerun hsrun hurun hgt]
        simp only [Bool.false_eq_true, if_false]
        exact hrec

/-- Fallback of the generated multi-run switch: a value outside every run
falls through every case to the default fallback. -/
theorem decodeMultiRuns_notmem {s : Bool} (typeName : String) :
    ∀ runs : List (List Value),
      (∀ r ∈ runs, r ≠ []) →
      (∀ r ∈ runs, List.Chain' (fun a b => contiguous Kind.Enum a.value b.value = true) r) →
      StrictSortedI s runs.flatten → UniformSigned s runs.flatten →
      BoundedVals runs.flatten → runs.flatten.length < W63 →
      ∀ i, i < W64 → (∀ v ∈ runs.flatten, v.value ≠ i) →
        decodeMultiRuns typeName i runs = fallbackStr typeName i := by
  intro runs
  induction runs with
  | nil => intro _ _ _ _ _ _ i _ _ ; rfl
  | cons run rest ih =>
    intro hnil hch hsort hu hb hlen i hi hnot
    simp only [List.flatten_cons] at hsort hu hb hlen hnot
    obtain ⟨hsrun, hsrest, _⟩ := List.pairwise_append.mp hsort
    have hurun : UniformSigned s run := fun x hx => hu x (by simp [hx])
    have hurest : UniformSigned s rest.flatten := fun x hx => hu x (by simp [hx])
    have hbrun : BoundedVals run := fun x hx => hb x (by simp [hx])
    have hbrest : BoundedVals rest.flatten := fun x hx => hb x (by simp [hx])
    have hlenapp : run.length + rest.flatten.length < W63 := by
      rw [List.length_append] at hlen ; exact hlen
    have hnerun : run ≠ [] := hnil run (by simp)
    have hchrun := hch run (by simp)
    have hnotrun : ∀ v ∈ run, v.value ≠ i := fun v hv => hnot v (by simp [hv])
    have hnotrest : ∀ v ∈ rest.flatten, v.value ≠ i :=
      fun v hv => hnot v (by simp [hv])
    have hrec := ih (fun r hr => hnil r (by simp [hr]))
      (fun r hr => hch r (by simp [hr])) hsrest hurest hbrest (by omega) i hi hnotrest
    unfold decodeMultiRuns
    by_cases h1 : run.length = 1
    · rw [if_pos h1]
      have hne : ¬ (i = (run.headD default).value) := by
        intro heq
        exact hnotrun _ (headD_mem run hnerun) heq.symm
      rw [if_neg hne]
      exact hrec
    · rw [if_neg h1]
      have hinr : inRangeRun run i = false := by
        cases hx : inRangeRun run i with
        | false => rfl
        | true =>
          exfalso
          unfold inRangeRun at hx
          have hs : (run.headD default).signed = s := hurun _ (headD_mem run hnerun)
          have hrange : interp s (run.headD default).value ≤ interp s i ∧
              interp s i ≤ interp s (run.getLastD default).value := by
            by_cases hc : ((run.headD default).value = 0 &&
                !(run.headD default).signed) = true
            · rw [if_pos hc] at hx
              simp only [Bool.and_eq_true, decide_eq_true_eq,
                Bool.not_eq_true'] at hc
              have hsf : s = false := by rw [← hs] ; exact hc.2
              simp only [decide_eq_true_eq] at hx
              subst hsf
              simp only [interp, Bool.false_eq_true, if_false]
              constructor
              · rw [hc.1] ; exact_mod_cast Nat.zero_le i
              · exact_mod_cast hx
            · rw [if_neg hc] at hx
              rw [hs] at hx
              simp only [Bool.and_eq_true, decide_eq_true_eq] at hx
              exact hx
          obtain ⟨j, hj, hjv⟩ := range_mem run hnerun hchrun hsrun hbrun i hi
            hrange.1 hrange.2
          exact hnotrun _ (getD_mem run j hj) hjv
      rw [hinr]
      simp only [Bool.false_eq_true, if_false]
      exact hrec

/-! ### Correctness of the sparse-map decode -/

theorem mapEntriesAux_eq : ∀ (l : List Value) (blob : List Char) (n : Nat),
    blob.drop n = (l.map nameChars).flatten →
    mapEntriesAux blob n l = l.map (fun v => (v.value, v.name)) := by
  intro l
  induction l with
  | nil => intro blob n _ ; rfl
  | cons v vs ih =>
    intro blob n h
    unfold mapEntriesAux
    simp only [List.map_cons, List.flatten_cons] at h
    have hslice : sliceStr blob n (n + (nameChars v).length) = v.name := by
      unfold sliceStr
      rw [sliceChars_drop_take, h, List.take_left' rfl]
      exact strMk_toList v.name
    have hdrop : blob.drop (n + (nameChars v).length) = (vs.map nameChars).flatten := by
      rw [← List.drop_drop, h, List.drop_left' rfl]
    rw [hslice, ih blob (n + (nameChars v).length) hdrop]
    rfl

theorem mapEntries_eq (runs : List (List Value)) :
    mapEntries runs = runs.flatten.map (fun v => (v.value, v.name)) := by
  unfold mapEntries
  exact mapEntriesAux_eq runs.flatten (globalBlob runs) 0 (by rfl)

theorem strict_distinct {s : Bool} {l : List Value} (h : StrictSortedI s l) :
    List.Pairwise (fun a b => a.value ≠ b.value) l := by
  refine h.imp ?_
  intro a b hlt heq
  rw [heq] at hlt
  exact lt_irrefl _ hlt

theorem find?_value_map {l : List Value}
    (hdist : List.Pairwise (fun a b => a.value ≠ b.value) l) :
    ∀ v ∈ l, (l.map (fun w => (w.value, w.name))).find? (fun e => e.1 = v.value) =
      some (v.value, v.name) := by
  induction l with
  | nil => intro v hv ; simp at hv
  | cons w ws ih =>
    intro v hv
    rcases List.mem_cons.mp hv with rfl | hv
    · simp only [List.map_cons]
      rw [List.find?_cons_of_pos _ (by simp)]
    · have hne : w.value ≠ v.value := List.rel_of_pairwise_cons hdist hv
      simp only [List.map_cons]
      rw [List.find?_cons_of_neg _ (by simpa using hne)]
      exact ih hdist.of_cons v hv

theorem find?_value_map_none {l : List Value} {i : Nat} (h : ∀ v ∈ l, v.value ≠ i) :
    (l.map (fun w => (w.value, w.name))).find? (fun e => e.1 = i) = none := by
  rw [List.find?_eq_none]
  intro e he
  simp only [List.mem_map] at he
  obtain ⟨w, hw, rfl⟩ := he
  simpa using h w hw

theorem decodeMap_mem {s : Bool} (typeName : String) (runs : List (List Value))
    (hsort : StrictSortedI s runs.flatten) :
    ∀ v ∈ runs.flatten, decodeMap typeName runs v.value = v.name := by
  intro v hv
  unfold decodeMap
  rw [mapEntries_eq, find?_value_map (strict_distinct hsort) v hv]

theorem decodeMap_notmem (typeName : String) (runs : List (List Value)) (i : Nat)
    (h : ∀ v ∈ runs.flatten, v.value ≠ i) :
    decodeMap typeName runs i = fallbackStr typeName i := by
  unfold decodeMap
  rw [mapEntries_eq, find?_value_map_none h]

/-! ### The full enum pipeline: invariants of `splitIntoRuns` output -/

theorem normalizeValues_length_le (l : List Value) :
    (normalizeValues l).length ≤ l.length := by
  have h1 := (removeDups_sublist (sortValues l)).length_le
  have h2 := (sortValues_perm l).length_eq
  unfold normalizeValues
  omega

theorem splitIntoRuns_strict {s : Bool} {l : List Value} (hu : UniformSigned s l)
    (hb : BoundedVals l) (kind : Kind) :
    StrictSortedI s (splitIntoRuns l kind).flatten := by
  rw [splitIntoRuns, splitRuns_flatten]
  exact normalizeValues_strict hu hb

theorem splitIntoRuns_uniform {s : Bool} {l : List Value} (hu : UniformSigned s l)
    (kind : Kind) : UniformSigned s (splitIntoRuns l kind).flatten := by
  rw [splitIntoRuns, splitRuns_flatten]
  exact fun v hv => hu v (mem_normalizeValues_of_mem v hv)

theorem splitIntoRuns_bounded {l : List Value} (hb : BoundedVals l) (kind : Kind) :
    BoundedVals (splitIntoRuns l kind).flatten := by
  rw [splitIntoRuns, splitRuns_flatten]
  exact fun v hv => hb v (mem_normalizeValues_of_mem v hv)

theorem splitIntoRuns_flatten_length {l : List Value} (kind : Kind) :
    (splitIntoRuns l kind).flatten.length ≤ l.length := by
  rw [splitIntoRuns, splitRuns_flatten]
  exact normalizeValues_length_le l

/-! ### Claim C5: enum round trip -/

/-- C5: for every value retained after normalization, the generated enum
decode — single-run method for one run, switch for up to eight runs, map
beyond — returns exactly that value's display name; the decoders index the
offset table directly when the containing run starts at value 0 and subtract
the run's first value before indexing otherwise (see `decodeOneRun` and
`decodeMultiRuns`). -/
theorem claim_C5 (typeName : String) (s : Bool) (l : List Value)
    (hu : UniformSigned s l) (hb : BoundedVals l) (hlen : l.length < W63) :
    ∀ v ∈ (splitIntoRuns l Kind.Enum).flatten,
      decodeEnum typeName (splitIntoRuns l Kind.Enum) v.value = v.name := by
  intro v hv
  have hnil := splitRuns_ne_nil Kind.Enum (normalizeValues l)
  have hch := splitRuns_chain Kind.Enum (normalizeValues l)
  have hsort := splitIntoRuns_strict hu hb Kind.Enum
  have hu' := splitIntoRuns_uniform hu Kind.Enum
  have hb' := splitIntoRuns_bounded hb Kind.Enum
  have hlen' : (splitIntoRuns l Kind.Enum).flatten.length < W63 :=
    lt_of_le_of_lt (splitIntoRuns_flatten_length Kind.Enum) hlen
  unfold decodeEnum
  by_cases h1 : (splitIntoRuns l Kind.Enum).length = 1
  · rw [if_pos h1]
    obtain ⟨run, hrun⟩ : ∃ run, splitIntoRuns l Kind.Enum = [run] := by
      cases hx : splitIntoRuns l Kind.Enum with
      | nil => rw [hx] at h1 ; simp at h1
      | cons r rs =>
        cases rs with
        | nil => exact ⟨r, rfl⟩
        | cons r2 rs2 => rw [hx] at h1 ; simp at h1
    rw [hrun] at hv hsort hu' hb' hlen' ⊢
    simp only [List.flatten_cons, List.flatten_nil, List.append_nil] at hv hsort hu' hb' hlen'
    simp only [List.headD_cons]
    refine decodeOneRun_mem typeName run ?_ ?_ hsort hu' hb' hlen' v hv
    · exact hnil run (by rw [splitIntoRuns] at hrun ; rw [hrun] ; simp)
    · exact hch run (by rw [splitIntoRuns] at hrun ; rw [hrun] ; simp)
  · rw [if_neg h1]
    by_cases h8 : (splitIntoRuns l Kind.Enum).length ≤ 8
    · rw [if_pos h8]
      exact decodeMultiRuns_mem typeName (splitIntoRuns l Kind.Enum) hnil hch hsort
        hu' hb' hlen' v hv
    · rw [if_neg h8]
      exact decodeMap_mem typeName (splitIntoRuns l Kind.Enum) hsort v hv

/-- Constant `Ten = 10` of the single-run example. -/
def exTen : Value := ⟨"Ten", "Ten", 10, false, "10"⟩

/-- Constant `Eleven = 11` of the single-run example. -/
def exEleven : Value := ⟨"Eleven", "Eleven", 11, false, "11"⟩

/-- Constant `Twelve = 12` of the single-run example. -/
def exTwelve : Value := ⟨"Twelve", "Twelve", 12, false, "12"⟩

/-- Witness for C5: in the `{10,11,12}` run, decoding 11 yields `"Eleven"`. -/
theorem claim_C5_witness :
    decodeEnum "T" (splitIntoRuns [exTen, exEleven, exTwelve] Kind.Enum) 11 =
      "Eleven" := by
  have h := claim_C5 "T" false [exTen, exEleven, exTwelve]
    (by intro v hv
        simp only [List.mem_cons, List.not_mem_nil, or_false] at hv
        rcases hv with rfl | rfl | rfl <;> rfl)
    (by intro v hv
        simp only [List.mem_cons, List.not_mem_nil, or_false] at hv
        rcases hv with rfl | rfl | rfl <;> norm_num [exTen, exEleven, exTwelve, W64_eq])
    (by norm_num [W63_eq])
  exact h exEleven (by decide)

/-! ### Claim C6: the out-of-range fallback -/

/-- C6 counterexample: the fallback always formats the bit pattern through
`strconv.FormatInt(int64(i), 10)`, so for an unsigned type the value
`2^64 - 1` outside the run `{10,11,12}` renders as `"T(-1)"`, not as the
unsigned decimal the claim prescribes. -/
theorem claim_C6_counterexample :
    decodeEnum "T" (splitIntoRuns [exTen, exEleven, exTwelve] Kind.Enum) (W64 - 1) =
      "T(-1)" ∧
    "T(-1)" ≠ "T(" ++ toString (W64 - 1) ++ ")" := by
  constructor
  · decide
  · decide

/-- C6 amended: a value outside all runs decodes to the fallback rendering
the type name and the decimal of the value's `int64` reading (two's
complement), for every strategy; for values below `2^63` — in particular the
claim's examples decoding 13 and 9 against the run `{10,11,12}` — this
coincides with the signed and with the unsigned decimal. -/
theorem claim_C6_amended (typeName : String) (s : Bool) (l : List Value)
    (hu : UniformSigned s l) (hb : BoundedVals l) (hlen : l.length < W63)
    (i : Nat) (hi : i < W64)
    (hnot : ∀ v ∈ (splitIntoRuns l Kind.Enum).flatten, v.value ≠ i) :
    decodeEnum typeName (splitIntoRuns l Kind.Enum) i = fallbackStr typeName i := by
  have hnil := splitRuns_ne_nil Kind.Enum (normalizeValues l)
  have hch := splitRuns_chain Kind.Enum (normalizeValues l)
  have hsort := splitIntoRuns_strict hu hb Kind.Enum
  have hu' := splitIntoRuns_uniform hu Kind.Enum
  have hb' := splitIntoRuns_bounded hb Kind.Enum
  have hlen' : (splitIntoRuns l Kind.Enum).flatten.length < W63 :=
    lt_of_le_of_lt (splitIntoRuns_flatten_length Kind.Enum) hlen
  unfold decodeEnum
  by_cases h1 : (splitIntoRuns l Kind.Enum).length = 1
  · rw [if_pos h1]
    obtain ⟨run, hrun⟩ : ∃ run, splitIntoRuns l Kind.Enum = [run] := by
      cases hx : splitIntoRuns l Kind.Enum with
      | nil => rw [hx] at h1 ; simp at h1
      | cons r rs =>
        cases rs with
        | nil => exact ⟨r, rfl⟩
        | cons r2 rs2 => rw [hx] at h1 ; simp at h1
    rw [hrun] at hnot hsort hu' hb' hlen' ⊢
    simp only [List.flatten_cons, List.flatten_nil, List.append_nil]
      at hnot hsort hu' hb' hlen'
    simp only [List.headD_cons]
    refine decodeOneRun_notmem typeName run ?_ ?_ hsort hu' hb' hlen' i hi hnot
    · exact hnil run (by rw [splitIntoRuns] at hrun ; rw [hrun] ; simp)
    · exact hch run (by rw [splitIntoRuns] at hrun ; rw [hrun] ; simp)
  · rw [if_neg h1]
    by_cases h8 : (splitIntoRuns l Kind.Enum).length ≤ 8
    · rw [if_pos h8]
      exact decodeMultiRuns_notmem typeName (splitIntoRuns l Kind.Enum) hnil hch
        hsort hu' hb' hlen' i hi hnot
    · rw [if_neg h8]
      exact decodeMap_notmem typeName (splitIntoRuns l Kind.Enum) i hnot

/-- Witness for the amended C6: decoding 13 and 9 against the `{10,11,12}`
run yields `"T(13)"` and `"T(9)"`. -/
theorem claim_C6_amended_witness :
    decodeEnum "T" (splitIntoRuns [exTen, exEleven, exTwelve] Kind.Enum) 13 =
      "T(13)" ∧
    decodeEnum "T" (splitIntoRuns [exTen, exEleven, exTwelve] Kind.Enum) 9 =
      "T(9)" := by
  have hu : UniformSigned false [exTen, exEleven, exTwelve] := by
    intro v hv
    simp only [List.mem_cons, List.not_mem_nil, or_false] at hv
    rcases hv with rfl | rfl | rfl <;> rfl
  have hb : BoundedVals [exTen, exEleven, exTwelve] := by
    intro v hv
    simp only [List.mem_cons, List.not_mem_nil, or_false] at hv
    rcases hv with rfl | rfl | rfl <;> norm_num [exTen, exEleven, exTwelve, W64_eq]
  have h13 := claim_C6_amended "T" false [exTen, exEleven, exTwelve] hu hb
    (by norm_num [W63_eq]) 13 (by norm_num [W64_eq]) (by decide)
  have h9 := claim_C6_amended "T" false [exTen, exEleven, exTwelve] hu hb
    (by norm_num [W63_eq]) 9 (by norm_num [W64_eq]) (by decide)
  exact ⟨by rw [h13] ; decide, by rw [h9] ; decide⟩

/-! ### Decode semantics of the generated flag ActiveFlags method -/

/-- Go clears flags with `a &^ b` on 64-bit patterns: keep the bits of `a` not in `b`. -/
def andNotW (a b : Nat) : Nat := a &&& (b ^^^ (W64 - 1))

/-- The zero-case scan of `buildFlagActiveFlagsMethodStart` inside one run:
the name slice of the first zero-valued member. -/
def zeroScanAux (run : List Value) (j : Nat) : List Value → Option String
  | [] => none
  | v :: vs => if v.value = 0 then some (runSlice run j) else zeroScanAux run (j + 1) vs

/-- The per-run zero case: a one-member run holding 0 yields its whole name
constant, a longer run yields the slice of its zero member. -/
def zeroInRun (run : List Value) : Option String :=
  if run.length = 1 then
    if (run.headD default).value = 0 then some (String.mk (runBlob run)) else none
  else zeroScanAux run 0 run

/-- The scan over all runs, stopping at the first zero found. -/
def findZeroName : List (List Value) → Option String
  | [] => none
  | run :: rest =>
    match zeroInRun run with
    | some z => some z
    | none => findZeroName rest

/-- The bit tests of one run of `buildFlagsMultipleRuns`: every non-zero
member contributes one `if i&v != 0` block; a one-member run uses its whole
name constant, longer runs use index slices. -/
def runFlagTestsAux (run : List Value) (j : Nat) : List Value → List (Nat × String)
  | [] => []
  | v :: vs =>
    if v.value = 0 then runFlagTestsAux run (j + 1) vs
    else (v.value, runSlice run j) :: runFlagTestsAux run (j + 1) vs

/-- The emitted test blocks for one run, in run order. -/
def runFlagTests (run : List Value) : List (Nat × String) :=
  if run.length = 1 then
    if (run.headD default).value = 0 then []
    else [((run.headD default).value, String.mk (runBlob run))]
  else runFlagTestsAux run 0 run

/-- All emitted test blocks, in run order. -/
def flagTests (runs : List (List Value)) : List (Nat × String) :=
  (runs.map runFlagTests).flatten

/-- The test-and-clear loop of the generated ActiveFlags body. -/
def flagLoop (i : Nat) (acc : List String) : List (Nat × String) → Nat × List String
  | [] => (i, acc)
  | t :: ts =>
    if i &&& t.1 ≠ 0 then flagLoop (andNotW i t.1) (acc ++ [t.2]) ts
    else flagLoop i acc ts

/-- The body after the zero shortcut: run the loop, then append the residual
fallback term when unrecognized bits remain. -/
def activeFlagsCore (typeName : String) (runs : List (List Value)) (i : Nat) :
    List String :=
  if (flagLoop i [] (flagTests runs)).1 ≠ 0 then
    (flagLoop i [] (flagTests runs)).2 ++
      [fallbackStr typeName (flagLoop i [] (flagTests runs)).1]
  else (flagLoop i [] (flagTests runs)).2

/-- The generated `ActiveFlags` method of `buildFlagsMultipleRuns`: the zero
shortcut first when some constant is 0, then the per-bit decomposition. -/
def activeFlags (typeName : String) (runs : List (List Value)) (i : Nat) :
    List String :=
  match findZeroName runs with
  | some z => if i = 0 then [z] else activeFlagsCore typeName runs i
  | none => activeFlagsCore typeName runs i

/-- Bitwise union of the values of a list of constants. -/
def orAll (l : List Value) : Nat := l.foldr (fun v a => v.value ||| a) 0

/-! ### The emitted flag tests are the non-zero values with their names -/

theorem drop_cons_facts {run : List Value} {j : Nat} {v : Value} {vs : List Value}
    (h : run.drop j = v :: vs) :
    j < run.length ∧ run.getD j default = v ∧ run.drop (j + 1) = vs := by
  have hj : j < run.length := by
    by_contra hge
    push_neg at hge
    rw [List.drop_eq_nil_of_le hge] at h
    exact List.noConfusion h
  have hcons := List.drop_eq_getElem_cons (l := run) (n := j) hj
  rw [h] at hcons
  obtain ⟨h1, h2⟩ := List.cons.inj hcons
  exact ⟨hj, by rw [List.getD_eq_getElem run default hj, h1], h2.symm⟩

theorem runFlagTestsAux_eq (run : List Value) :
    ∀ (sub : List Value) (j : Nat), run.drop j = sub →
      runFlagTestsAux run j sub =
        (sub.filter (fun v => v.value != 0)).map (fun v => (v.value, v.name)) := by
  intro sub
  induction sub with
  | nil => intro j _ ; rfl
  | cons v vs ih =>
    intro j hdrop
    obtain ⟨hj, hget, hdrop'⟩ := drop_cons_facts hdrop
    unfold runFlagTestsAux
    by_cases hz : v.value = 0
    · rw [if_pos hz, ih (j + 1) hdrop']
      simp [List.filter_cons, hz]
    · rw [if_neg hz, ih (j + 1) hdrop', runSlice_eq run j hj, hget]
      simp [List.filter_cons, hz]

theorem runFlagTests_singleton (w : Value) :
    runFlagTests [w] =
      ([w].filter (fun v => v.value != 0)).map (fun v => (v.value, v.name)) := by
  unfold runFlagTests
  by_cases hz : w.value = 0
  · simp [hz]
  · simp only [List.length_singleton, if_true, List.headD_cons, if_neg hz,
    strMk_runBlob_singleton]
    simp [hz]

theorem runFlagTests_eq (run : List Value) :
    runFlagTests run =
      (run.filter (fun v => v.value != 0)).map (fun v => (v.value, v.name)) := by
  by_cases h1 : run.length = 1
  · rw [eq_singleton_of_length_one h1]
    exact runFlagTests_singleton _
  · unfold runFlagTests
    rw [if_neg h1]
    exact runFlagTestsAux_eq run run 0 rfl

theorem flagTests_eq (runs : List (List Value)) :
    flagTests runs =
      (runs.flatten.filter (fun v => v.value != 0)).map (fun v => (v.value, v.name)) := by
  induction runs with
  | nil => rfl
  | cons run rest ih =>
    unfold flagTests at ih ⊢
    simp only [List.map_cons, List.flatten_cons, List.filter_append,
      List.map_append, ih, runFlagTests_eq run]

/-! ### The zero scan finds the first zero constant's name -/

theorem zeroScanAux_eq (run : List Value) :
    ∀ (sub : List Value) (j : Nat), run.drop j = sub →
      zeroScanAux run j sub = (sub.find? (fun v => v.value = 0)).map (fun v => v.name) := by
  intro sub
  induction sub with
  | nil => intro j _ ; rfl
  | cons v vs ih =>
    intro j hdrop
    obtain ⟨hj, hget, hdrop'⟩ := drop_cons_facts hdrop
    unfold zeroScanAux
    by_cases hz : v.value = 0
    · rw [if_pos hz, runSlice_eq run j hj, hget,
        List.find?_cons_of_pos vs (by simpa using hz)]
      rfl
    · rw [if_neg hz, ih (j + 1) hdrop',
        List.find?_cons_of_neg vs (by simpa using hz)]

theorem zeroInRun_singleton (w : Value) :
    zeroInRun [w] = ([w].find? (fun v => v.value = 0)).map (fun v => v.name) := by
  unfold zeroInRun
  by_cases hz : w.value = 0
  · simp only [List.length_singleton, if_true, List.headD_cons, if_pos hz,
      strMk_runBlob_singleton]
    rw [List.find?_cons_of_pos [] (by simpa using hz)]
    rfl
  · simp only [List.length_singleton, if_true, List.headD_cons, if_neg hz]
    rw [List.find?_cons_of_neg [] (by simpa using hz)]
    rfl

theorem zeroInRun_eq (run : List Value) :
    zeroInRun run = (run.find? (fun v => v.value = 0)).map (fun v => v.name) := by
  by_cases h1 : run.length = 1
  · rw [eq_singleton_of_length_one h1]
    exact zeroInRun_singleton _
  · unfold zeroInRun
    rw [if_neg h1]
    exact zeroScanAux_eq run run 0 rfl

theorem findZeroName_eq (runs : List (List Value)) :
    findZeroName runs =
      (runs.flatten.find? (fun v => v.value = 0)).map (fun v => v.name) := by
  induction runs with
  | nil => rfl
  | cons run rest ih =>
    unfold findZeroName
    rw [zeroInRun_eq run]
    simp only [List.flatten_cons, List.find?_append]
    cases hx : run.find? (fun v => v.value = 0) with
    | some z => rfl
    | none => simpa using ih

/-! ### Bit-level facts for the test-and-clear loop -/

theorem lor_eq_zero {x y : Nat} : x ||| y = 0 ↔ x = 0 ∧ y = 0 := by
  constructor
  · intro h
    constructor <;> refine Nat.eq_of_testBit_eq (fun i => ?_)
    · have := congrArg (fun t => t.testBit i) h
      simp only [Nat.testBit_lor, Nat.zero_testBit, Bool.or_eq_false_iff] at this
      simp [this.1]
    · have := congrArg (fun t => t.testBit i) h
      simp only [Nat.testBit_lor, Nat.zero_testBit, Bool.or_eq_false_iff] at this
      simp [this.2]
  · rintro ⟨rfl, rfl⟩ ; rfl

theorem land_eq_zero_iff_testBit {x y : Nat} :
    x &&& y = 0 ↔ ∀ i, x.testBit i = false ∨ y.testBit i = false := by
  constructor
  · intro h i
    have := congrArg (fun t => t.testBit i) h
    simp only [Nat.testBit_land, Nat.zero_testBit, Bool.and_eq_false_iff] at this
    exact this
  · intro h
    refine Nat.eq_of_testBit_eq (fun i => ?_)
    simp only [Nat.testBit_land, Nat.zero_testBit]
    rcases h i with h' | h' <;> simp [h']

theorem land_two_pow_ne_zero {x k : Nat} : x &&& 2 ^ k ≠ 0 ↔ x.testBit k = true := by
  rw [Nat.and_two_pow]
  cases h : x.testBit k with
  | false => simp
  | true => simp

theorem testBit_orAll (l : List Value) (k : Nat) :
    (orAll l).testBit k = l.any (fun v => v.value.testBit k) := by
  induction l with
  | nil => simp [orAll]
  | cons v vs ih =>
    unfold orAll at ih ⊢
    simp only [List.foldr_cons, Nat.testBit_lor, ih, List.any_cons]

theorem testBit_high_false {x m : Nat} (hx : x < W64) (hm : 64 ≤ m) :
    x.testBit m = false := by
  refine Nat.testBit_eq_false_of_lt (lt_of_lt_of_le ?_ (Nat.pow_le_pow_right (by norm_num) hm))
  exact hx

theorem testBit_andNotW {i b k : Nat} (hi : i < W64) (hk : k < 64) (hb : b = 2 ^ k) :
    ∀ m, (andNotW i b).testBit m = (i.testBit m && !(decide (m = k))) := by
  intro m
  unfold andNotW
  rcases Nat.lt_or_ge m 64 with hm | hm
  · have hmask : (W64 - 1).testBit m = true := by
      rw [W64]
      rw [Nat.testBit_two_pow_sub_one]
      simpa using hm
    simp only [Nat.testBit_land, Nat.testBit_xor, hmask, hb]
    cases hmk : decide (m = k) with
    | true =>
      simp only [decide_eq_true_eq] at hmk
      subst hmk
      simp [Nat.testBit_two_pow_self]
    | false =>
      simp only [decide_eq_false_iff_not] at hmk
      rw [Nat.testBit_two_pow_of_ne (fun h => hmk h.symm)]
      simp
  · have h1 : i.testBit m = false := testBit_high_false hi hm
    have h2 : (2 ^ k : Nat).testBit m = false :=
      Nat.testBit_two_pow_of_ne (by omega)
    have h3 : (W64 - 1).testBit m = false := by
      rw [W64, Nat.testBit_two_pow_sub_one]
      simpa using hm
    simp [Nat.testBit_land, Nat.testBit_xor, h1, h2, h3, hb]

/-- One pass of the test-and-clear loop over the known non-zero flag bits:
the selected bits are recognized in order and cleared, the residual survives
untouched. -/
theorem flagLoop_spec : ∀ (known sel : List Value) (r : Nat) (acc : List String),
    sel.Sublist known →
    (∀ v ∈ known, ∃ k, k < 64 ∧ v.value = 2 ^ k) →
    List.Pairwise (fun a b => a.value ≠ b.value) known →
    r < W64 → r &&& orAll known = 0 →
    flagLoop (orAll sel ||| r) acc (known.map (fun v => (v.value, v.name))) =
      (r, acc ++ sel.map (fun v => v.name)) := by
  intro known
  induction known with
  | nil =>
    intro sel r acc hsub _ _ _ _
    rw [List.sublist_nil.mp hsub]
    simp [flagLoop, orAll]
  | cons w ws ih =>
    intro sel r acc hsub hpow hdist hr hdisj
    obtain ⟨k, hk64, hwk⟩ := hpow w (by simp)
    have hws_pow : ∀ v ∈ ws, ∃ k, k < 64 ∧ v.value = 2 ^ k :=
      fun v hv => hpow v (by simp [hv])
    have hwne : ∀ v ∈ ws, w.value ≠ v.value :=
      fun v hv => List.rel_of_pairwise_cons hdist hv
    have hrk : r.testBit k = false := by
      have horb : (orAll (w :: ws)).testBit k = true := by
        rw [testBit_orAll]
        simp only [List.any_cons, Bool.or_eq_true]
        exact Or.inl (by rw [hwk] ; exact Nat.testBit_two_pow_self)
      rcases land_eq_zero_iff_testBit.mp hdisj k with h | h
      · exact h
      · rw [horb] at h ; exact absurd h (by simp)
    have hdisj' : r &&& orAll ws = 0 := by
      refine land_eq_zero_iff_testBit.mpr (fun i => ?_)
      rcases land_eq_zero_iff_testBit.mp hdisj i with h | h
      · exact Or.inl h
      · refine Or.inr ?_
        rw [testBit_orAll] at h ⊢
        simp only [List.any_cons, Bool.or_eq_false_iff] at h
        exact h.2
    have hws_bit_ne : ∀ v ∈ ws, v.value.testBit k = false := by
      intro v hv
      obtain ⟨k', hk', hv'⟩ := hws_pow v hv
      rw [hv']
      refine Nat.testBit_two_pow_of_ne (fun hkk => ?_)
      exact hwne v hv (by rw [hwk, hv', hkk])
    have horAll_lt : ∀ sel2 : List Value, (∀ v ∈ sel2, ∃ k2, k2 < 64 ∧ v.value = 2 ^ k2) →
        orAll sel2 < W64 := by
      intro sel2 hp
      induction sel2 with
      | nil => exact W64_pos
      | cons x xs ihx =>
        obtain ⟨k2, hk2, hx2⟩ := hp x (by simp)
        have h1 : x.value < W64 := by
          rw [hx2, W64]
          exact Nat.pow_lt_pow_right (by norm_num) hk2
        have h2 := ihx (fun v hv => hp v (by simp [hv]))
        unfold orAll at h2 ⊢
        simp only [List.foldr_cons]
        rw [W64] at h1 h2 ⊢
        exact Nat.or_lt_two_pow h1 h2
    cases hsub with
    | cons _a hsub2 =>
      have hsel_bit : (orAll sel).testBit k = false := by
        rw [testBit_orAll]
        refine List.any_eq_false.mpr (fun v hv => ?_)
        simp only [Bool.not_eq_true]
        exact hws_bit_ne v (hsub2.mem hv)
      have htest : (orAll sel ||| r) &&& w.value = 0 := by
        rw [hwk]
        by_contra hne
        have := land_two_pow_ne_zero.mp hne
        rw [Nat.testBit_lor, hsel_bit, hrk] at this
        exact absurd this (by simp)
      simp only [List.map_cons, flagLoop]
      rw [if_neg (by simpa using htest)]
      exact ih sel r acc hsub2 hws_pow hdist.of_cons hr hdisj'
    | cons₂ _a hsub2 =>
      rename_i sel'
      have hsel'_bits : ∀ v ∈ sel', v.value.testBit k = false :=
        fun v hv => hws_bit_ne v (hsub2.mem hv)
      have hsel'_pow : ∀ v ∈ w :: sel', ∃ k2, k2 < 64 ∧ v.value = 2 ^ k2 := by
        intro v hv
        rcases List.mem_cons.mp hv with rfl | hv
        · exact ⟨k, hk64, hwk⟩
        · exact hws_pow v (hsub2.mem hv)
      have hibound : orAll (w :: sel') ||| r < W64 := by
        have h1 := horAll_lt (w :: sel') hsel'_pow
        rw [W64] at h1 hr ⊢
        exact Nat.or_lt_two_pow h1 hr
      have hiw : (orAll (w :: sel') ||| r) &&& w.value ≠ 0 := by
        rw [hwk]
        refine land_two_pow_ne_zero.mpr ?_
        rw [Nat.testBit_lor, testBit_orAll]
        simp only [List.any_cons, Bool.or_eq_true]
        exact Or.inl (Or.inl (by rw [hwk] ; exact Nat.testBit_two_pow_self))
      have hclear : andNotW (orAll (w :: sel') ||| r) w.value = orAll sel' ||| r := by
        refine Nat.eq_of_testBit_eq (fun m => ?_)
        rw [testBit_andNotW hibound hk64 hwk m]
        by_cases hm : m = k
        · subst hm
          have hany : sel'.any (fun v => v.value.testBit m) = false :=
            List.any_eq_false.mpr (fun v hv => by simp [hsel'_bits v hv])
          simp [Nat.testBit_lor, testBit_orAll, hany, hrk]
        · have hwm : w.value.testBit m = false := by
            rw [hwk]
            exact Nat.testBit_two_pow_of_ne (fun h => hm h.symm)
          simp [hm, Nat.testBit_lor, testBit_orAll, hwm]
      simp only [List.map_cons, flagLoop]
      rw [if_pos hiw, hclear,
        ih sel' r (acc ++ [w.name]) hsub2 hws_pow hdist.of_cons hr hdisj']
      simp

theorem flagLoop_zero : ∀ (ts : List (Nat × String)) (acc : List String),
    flagLoop 0 acc ts = (0, acc) := by
  intro ts
  induction ts with
  | nil => intro acc ; rfl
  | cons t ts ih =>
    intro acc
    unfold flagLoop
    rw [if_neg (by simp [Nat.zero_and])]
    exact ih acc

/-! ### Claim C4: flag round trip -/

/-- Signed flag constant on bit 63: sorts first under signed comparison. -/
def cxA : Value := ⟨"A", "A", 9223372036854775808, true, "A"⟩

/-- Signed flag constant on bit 0. -/
def cxB : Value := ⟨"B", "B", 1, true, "B"⟩

set_option maxRecDepth 2000 in
/-- C4 counterexample: the decomposition emits names in normalized value
order, which for a signed flag type carrying bit 63 is not ascending
bit-position order: `1<<63` sorts first as the most negative value, so
decoding `1<<63 | 1` yields `["A", "B"]` where the claim's ascending
bit-position order demands `["B", "A"]`. -/
theorem claim_C4_counterexample :
    activeFlags "T" (splitIntoRuns [cxA, cxB] Kind.Flag) (9223372036854775809) =
      ["A", "B"] ∧
    ["A", "B"] ≠ ["B", "A"] := by
  constructor
  · decide
  · decide

/-- C4 amended: for flag constants of any uniform signedness (each 0 or a
single bit), and any input assembled from a selection of the retained
non-zero bits plus a residual disjoint from all of them, the decomposition
decode emits the display names of exactly the selected bits in normalized
value order — the retained bits are strictly ascending under the
signedness-directed interpretation, which for unsigned constants is
ascending bit-position order, while a signed bit-63 constant sorts first —
followed by exactly one fallback term for the residual when it is non-zero;
the input 0 decodes to the zero constant's single name when one was
declared and to the empty sequence otherwise. -/
theorem claim_C4_amended (typeName : String) (s : Bool) (l : List Value)
    (hu : UniformSigned s l) (hb : BoundedVals l)
    (hpw : ∀ v ∈ l, v.value = 0 ∨ ∃ k, k < 64 ∧ v.value = 2 ^ k)
    (sel : List Value) (r : Nat)
    (hsel : sel.Sublist
      ((splitIntoRuns l Kind.Flag).flatten.filter (fun v => v.value != 0)))
    (hr : r < W64)
    (hdisj : r &&& orAll
      ((splitIntoRuns l Kind.Flag).flatten.filter (fun v => v.value != 0)) = 0)
    (hnz : sel ≠ [] ∨ r ≠ 0) :
    activeFlags typeName (splitIntoRuns l Kind.Flag) (orAll sel ||| r) =
      sel.map (fun v => v.name) ++
        (if r = 0 then [] else [fallbackStr typeName r]) ∧
    ((∃ z ∈ (splitIntoRuns l Kind.Flag).flatten, z.value = 0) →
      ∃ z, z ∈ (splitIntoRuns l Kind.Flag).flatten ∧ z.value = 0 ∧
        activeFlags typeName (splitIntoRuns l Kind.Flag) 0 = [z.name]) ∧
    ((∀ v ∈ (splitIntoRuns l Kind.Flag).flatten, v.value ≠ 0) →
      activeFlags typeName (splitIntoRuns l Kind.Flag) 0 = []) ∧
    List.Pairwise (fun a b => interp s a.value < interp s b.value)
      ((splitIntoRuns l Kind.Flag).flatten.filter (fun v => v.value != 0)) ∧
    (s = false → List.Pairwise (fun a b => a.value < b.value)
      ((splitIntoRuns l Kind.Flag).flatten.filter (fun v => v.value != 0))) := by
  have hsort := splitIntoRuns_strict hu hb Kind.Flag
  have horder : List.Pairwise (fun a b => interp s a.value < interp s b.value)
      ((splitIntoRuns l Kind.Flag).flatten.filter (fun v => v.value != 0)) :=
    List.Pairwise.sublist (List.filter_sublist _) hsort
  have hpw' : ∀ v ∈ (splitIntoRuns l Kind.Flag).flatten.filter (fun v => v.value != 0),
      ∃ k, k < 64 ∧ v.value = 2 ^ k := by
    intro v hv
    have hvmem := List.mem_of_mem_filter hv
    have hvne : v.value ≠ 0 := by
      have := List.of_mem_filter hv
      simpa using this
    have hvl : v ∈ l := by
      rw [splitIntoRuns, splitRuns_flatten] at hvmem
      exact mem_normalizeValues_of_mem v hvmem
    rcases hpw v hvl with h | h
    · exact absurd h hvne
    · exact h
  have hdist : List.Pairwise (fun a b => a.value ≠ b.value)
      ((splitIntoRuns l Kind.Flag).flatten.filter (fun v => v.value != 0)) :=
    (strict_distinct hsort).sublist (List.filter_sublist _) |>.imp (fun h => h) |>
      (fun h => h)
  have hine : orAll sel ||| r ≠ 0 := by
    intro h
    obtain ⟨hsel0, hr0⟩ := lor_eq_zero.mp h
    rcases hnz with hs | hrn
    · cases sel with
      | nil => exact hs rfl
      | cons v vs =>
        unfold orAll at hsel0
        simp only [List.foldr_cons] at hsel0
        obtain ⟨hv0, _⟩ := lor_eq_zero.mp hsel0
        obtain ⟨k, _, hk⟩ := hpw' v (hsel.mem (by simp))
        rw [hk] at hv0
        exact absurd hv0 (by positivity)
    · exact hrn hr0
  have hcore : activeFlagsCore typeName (splitIntoRuns l Kind.Flag) (orAll sel ||| r) =
      sel.map (fun v => v.name) ++
        (if r = 0 then [] else [fallbackStr typeName r]) := by
    unfold activeFlagsCore
    rw [flagTests_eq, flagLoop_spec _ sel r [] hsel hpw' hdist hr hdisj]
    by_cases hr0 : r = 0
    · rw [if_neg (by simpa using hr0)]
      simp [hr0]
    · rw [if_pos (by simpa using hr0)]
      simp [hr0]
  refine ⟨?_, ?_, ?_, horder, ?_⟩
  · unfold activeFlags
    cases hz : findZeroName (splitIntoRuns l Kind.Flag) with
    | none => exact hcore
    | some z =>
      simp only [if_neg hine]
      exact hcore
  · intro ⟨z', hz', hz0⟩
    have hfind : ((splitIntoRuns l Kind.Flag).flatten.find?
        (fun v => v.value = 0)).isSome = true := by
      rw [List.find?_isSome]
      exact ⟨z', hz', by simpa using hz0⟩
    obtain ⟨z, hzfind⟩ := Option.isSome_iff_exists.mp hfind
    refine ⟨z, List.mem_of_find?_eq_some hzfind, by
      simpa using List.find?_some hzfind, ?_⟩
    unfold activeFlags
    rw [findZeroName_eq, hzfind]
    simp
  · intro hno
    have hfind : (splitIntoRuns l Kind.Flag).flatten.find?
        (fun v => v.value = 0) = none := by
      rw [List.find?_eq_none]
      intro v hv
      simpa using hno v hv
    unfold activeFlags
    rw [findZeroName_eq, hfind]
    simp only [Option.map_none]
    unfold activeFlagsCore
    rw [flagLoop_zero]
    simp
  · intro hs
    subst hs
    refine horder.imp ?_
    intro a b hab
    simp only [interp, Bool.false_eq_true, if_false] at hab
    exact_mod_cast hab

/-- Unsigned flag constant on bit 0. -/
def fA : Value := ⟨"A", "A", 1, false, "1"⟩

/-- Unsigned flag constant on bit 1. -/
def fB : Value := ⟨"B", "B", 2, false, "2"⟩

/-- Witness for the amended C4: flags `{A=1, B=2}`, input `1 ||| 4`: the
known bit decodes to its name and the residual 4 to one fallback term. -/
theorem claim_C4_amended_witness :
    activeFlags "T" (splitIntoRuns [fA, fB] Kind.Flag) (orAll [fA] ||| 4) =
      [fA].map (fun v => v.name) ++
        (if (4 : Nat) = 0 then [] else [fallbackStr "T" 4]) := by
  have h := claim_C4_amended "T" false [fA, fB]
    (by intro v hv
        simp only [List.mem_cons, List.not_mem_nil, or_false] at hv
        rcases hv with rfl | rfl <;> rfl)
    (by intro v hv
        simp only [List.mem_cons, List.not_mem_nil, or_false] at hv
        rcases hv with rfl | rfl <;> norm_num [fA, fB, W64_eq])
    (by intro v hv
        simp only [List.mem_cons, List.not_mem_nil, or_false] at hv
        rcases hv with rfl | rfl
        · exact Or.inr ⟨0, by norm_num, rfl⟩
        · exact Or.inr ⟨1, by norm_num, rfl⟩)
    [fA] 4 (by decide) (by norm_num [W64_eq]) (by decide) (Or.inl (by simp))
  exact h.1

/-! ### Claim C8: the zero value's run under flag splitting -/

/-- The zero flag constant of the example. -/
def exZ : Value := ⟨"Z", "Z", 0, false, "0"⟩

/-- C8 counterexample: for normalized flag values `{0, 1}` the first
disjunct of the flag predicate (`v[i-1] == 0`) merges 0 with the following
value, so the run containing 0 also contains 1 — it is not a singleton. -/
theorem claim_C8_counterexample :
    splitIntoRuns [exZ, exA] Kind.Flag = [[exZ, exA]] ∧
    exZ.value = 0 ∧ [exZ, exA].length ≠ 1 := by
  refine ⟨by decide, by decide, by decide⟩

/-- The signed zero constant of the mid-run example. -/
def sgZ : Value := ⟨"Z", "Z", 0, true, "0"⟩

/-- When some run ends with a value contiguous to everything, that run must
be the partition's final run, so the value ends the whole sequence. -/
theorem flatten_getLast_of_mem (kind : Kind) :
    ∀ runs : List (List Value), (∀ r ∈ runs, r ≠ []) →
      List.Chain' (boundaryFail kind) runs →
      ∀ r ∈ runs, ∀ z : Value, r.getLast? = some z →
        (∀ b : Value, contiguous kind z.value b.value = true) →
        runs.flatten.getLast? = some z := by
  intro runs
  induction runs with
  | nil => intro _ _ r hr ; simp at hr
  | cons r0 rest ih =>
    intro hnil hbound r hr z hzlast hall
    rcases List.mem_cons.mp hr with heq | hmem
    · rw [heq] at hzlast
      cases rest with
      | nil => simpa using hzlast
      | cons r1 rest2 =>
        exfalso
        have hb : boundaryFail kind r0 r1 := (List.chain'_cons.mp hbound).1
        have hr1ne : r1 ≠ [] := hnil r1 (by simp)
        obtain ⟨b, bs, rfl⟩ : ∃ b bs, r1 = b :: bs := by
          cases r1 with
          | nil => exact absurd rfl hr1ne
          | cons b bs => exact ⟨b, bs, rfl⟩
        have hfail := hb z hzlast b (by simp)
        rw [hall b] at hfail
        exact Bool.noConfusion hfail
    · have hIH := ih (fun x hx => hnil x (by simp [hx])) hbound.tail r hmem z
        hzlast hall
      have hne : rest.flatten ≠ [] := by
        intro h
        rw [h] at hIH
        simp at hIH
      rw [List.flatten_cons, List.getLast?_append_of_ne_nil _ hne]
      exact hIH

/-- C8 amended: under flag splitting a zero value forms its own singleton
run only when nothing merges with it.  Because the predicate's first
disjunct (`v[i-1] == 0`) always accepts the value after a zero, a zero
never ends a run unless it ends the whole normalized sequence — so a zero
followed by any value shares its run with that value; a lone zero is a
singleton run; and a preceding value whose doubling wraps to 0 absorbs the
zero into the preceding run, as in signed `{1<<63, 0, 1}`, which forms the
single run `[1<<63, 0, 1]` with the zero in the middle. -/
theorem claim_C8_amended (l r : List Value) (z : Value) (hz : z.value = 0)
    (hr : r ∈ splitRuns Kind.Flag l) (hlast : r.getLast? = some z) :
    l.getLast? = some z ∧
    splitRuns Kind.Flag [z] = [[z]] ∧
    splitIntoRuns [cxA, sgZ, cxB] Kind.Flag = [[cxA, sgZ, cxB]] := by
  refine ⟨?_, rfl, by decide⟩
  have hall : ∀ b : Value, contiguous Kind.Flag z.value b.value = true := by
    intro b
    simp [contiguous, hz]
  have h := flatten_getLast_of_mem Kind.Flag (splitRuns Kind.Flag l)
    (splitRuns_ne_nil Kind.Flag l) (splitRuns_boundary Kind.Flag l) r hr z hlast hall
  rwa [splitRuns_flatten] at h

/-- Witness for the amended C8 at the lone zero constant: the run ending
with the zero is the whole sequence, and the signed mid-run example holds. -/
theorem claim_C8_amended_witness :
    [exZ].getLast? = some exZ ∧
    splitRuns Kind.Flag [exZ] = [[exZ]] ∧
    splitIntoRuns [cxA, sgZ, cxB] Kind.Flag = [[cxA, sgZ, cxB]] :=
  claim_C8_amended [exZ] [exZ] exZ rfl (by decide) (by decide)

/-! ### Constant collection (genDecl) and per-type processing (generate) -/

/-- The source's `isPow2`: `x & (x-1) == 0` on 64-bit patterns, where the
decrement wraps at zero; note that `isPow2 0 = true`, so zero passes the
flag filter. -/
def isPow2 (x : Nat) : Bool := decide (x &&& ((x + W64 - 1) % W64) = 0)

/-- One constant declaration as the type checker hands it to `genDecl`:
name, declared type name, 64-bit value pattern and literal text. -/
structure ConstSpec where
  constName : String
  constType : String
  value : Nat
  str : String
deriving DecidableEq, Repr

/-- The collection loop of `genDecl` for one target type: keep the constants
declared with that type whose name is not the blank identifier, drop
non-power-of-two values for flag kinds, and derive each collected value's
signedness from the one underlying basic-type info of its declared type
(`env` maps a type name to its IsUnsigned flag). -/
def collectValues (env : String → Bool) (typeName : String) (kind : Kind)
    (specs : List ConstSpec) : List Value :=
  (specs.filter (fun c => decide (c.constType = typeName) &&
      decide (c.constName ≠ "_") &&
      (decide (kind = Kind.Enum) || isPow2 c.value))).map
    (fun c => ⟨c.constName, c.constName, c.value, !(env c.constType), c.str⟩)

/-- One type through `generate`: `log.Fatalf` when no values were collected
(modelled as an error that aborts the invocation), otherwise the run
partition of the collected values. -/
def generateOne (env : String → Bool) (specs : List ConstSpec) (typeName : String)
    (kind : Kind) : Except String (List (List Value)) :=
  if (collectValues env typeName kind specs).isEmpty then
    Except.error ("no values defined for type " ++ typeName)
  else Except.ok (splitIntoRuns (collectValues env typeName kind specs) kind)

/-- The per-type loop of `run`: `generate` runs for each requested type in
order; because `log.Fatalf` exits the process, the first failing type aborts
the whole invocation and later types are never processed. -/
def processTypes (env : String → Bool) (specs : List ConstSpec) :
    List (String × Kind) → Except String (List (List (List Value)))
  | [] => Except.ok []
  | (t, k) :: rest =>
    match generateOne env specs t k with
    | Except.error e => Except.error e
    | Except.ok o =>
      match processTypes env specs rest with
      | Except.error e => Except.error e
      | Except.ok os => Except.ok (o :: os)

/-! ### Claim C9: the empty-input failure -/

/-- The IsUnsigned environment of the concrete example: both types signed. -/
def cEnv : String → Bool := fun _ => false

/-- Constant specs of the example: `T1` only holds the non-power-of-two
flag value 3, `T2` holds the usable value 1. -/
def cSpecs : List ConstSpec := [⟨"A", "T1", 3, "3"⟩, ⟨"B", "T2", 1, "1"⟩]

/-- C9 counterexample: after the flag filter drops `A = 3`, type `T1` has no
values and `generate` hits `log.Fatalf`; since that exits the process, type
`T2` — processable on its own — is never handled, contrary to the claim that
the failure leaves other types unaffected. -/
theorem claim_C9_counterexample :
    processTypes cEnv cSpecs [("T1", Kind.Flag), ("T2", Kind.Enum)] =
      Except.error "no values defined for type T1" ∧
    processTypes cEnv cSpecs [("T2", Kind.Enum)] =
      Except.ok [[[⟨"B", "B", 1, true, "1"⟩]]] := by
  refine ⟨by rfl, by rfl⟩

/-- C9 amended: when, after the kind-specific filtering (for flags, dropping
values that are neither zero nor a power of two — `isPow2` accepts 0), zero
values remain for a type, processing fails with an error naming the type;
because the failure is `log.Fatalf`, it aborts the entire invocation, so the
remaining types are not processed. -/
theorem claim_C9_amended (env : String → Bool) (specs : List ConstSpec)
    (t : String) (k : Kind) (rest : List (String × Kind))
    (hempty : collectValues env t k specs = []) :
    processTypes env specs ((t, k) :: rest) =
      Except.error ("no values defined for type " ++ t) ∧
    (∀ v ∈ collectValues env t Kind.Flag specs, isPow2 v.value = true) := by
  constructor
  · unfold processTypes generateOne
    rw [hempty]
    rfl
  · intro v hv
    unfold collectValues at hv
    simp only [List.mem_map] at hv
    obtain ⟨c, hc, rfl⟩ := hv
    have hfilter := List.of_mem_filter hc
    simp only [Bool.and_eq_true, Bool.or_eq_true, decide_eq_true_eq] at hfilter
    rcases hfilter.2 with h | h
    · exact absurd h (by intro hh ; exact Kind.noConfusion hh)
    · exact h

/-- Witness for the amended C9: at the concrete example, the first type's
failure aborts with the type name in the message. -/
theorem claim_C9_amended_witness :
    processTypes cEnv cSpecs [("T1", Kind.Flag), ("T2", Kind.Enum)] =
      Except.error ("no values defined for type " ++ "T1") :=
  (claim_C9_amended cEnv cSpecs "T1" Kind.Flag [("T2", Kind.Enum)] (by decide)).1

/-! ### Claim C10: uniform signedness and the one-sided comparator -/

/-- A signed constant whose pattern reads as `-1`. -/
def mixA : Value := ⟨"N", "N", 18446744073709551615, true, "-1"⟩

/-- An unsigned constant of value 1. -/
def mixB : Value := ⟨"P", "P", 1, false, "1"⟩

/-- C10: every collected value of one type carries the same signedness flag,
computed once from the target type's basic-type info; this is needed because
`byValue.Less` reads only its left operand's signedness, and on a
mixed-signedness pair such as `{-1 (signed), 1 (unsigned)}` it holds in both
directions, so it would not be a consistent total order. -/
theorem claim_C10 (env : String → Bool) (t : String) (k : Kind)
    (specs : List ConstSpec) :
    (∀ v ∈ collectValues env t k specs, v.signed = !(env t)) ∧
    (∀ v ∈ collectValues env t k specs, ∀ w ∈ collectValues env t k specs,
      v.signed = w.signed) ∧
    (∀ a b b' : Value, b.value = b'.value → valueLess a b = valueLess a b') ∧
    (mixA.signed = true ∧ mixB.signed = false ∧
      valueLess mixA mixB = true ∧ valueLess mixB mixA = true) := by
  have h1 : ∀ v ∈ collectValues env t k specs, v.signed = !(env t) := by
    intro v hv
    unfold collectValues at hv
    simp only [List.mem_map] at hv
    obtain ⟨c, hc, rfl⟩ := hv
    have hfilter := List.of_mem_filter hc
    simp only [Bool.and_eq_true, decide_eq_true_eq] at hfilter
    simp [hfilter.1.1]
  refine ⟨h1, fun v hv w hw => by rw [h1 v hv, h1 w hw], ?_, rfl, rfl, ?_, ?_⟩
  · intro a b b' hbb
    unfold valueLess
    rw [hbb]
  · decide
  · decide

/-- Witness for C10 at a concrete collection and the mixed pair. -/
theorem claim_C10_witness :
    (∀ v ∈ collectValues cEnv "T2" Kind.Enum cSpecs, v.signed = !(cEnv "T2")) ∧
    valueLess mixA mixB = true ∧ valueLess mixB mixA = true :=
  have h := claim_C10 cEnv "T2" Kind.Enum cSpecs
  ⟨h.1, h.2.2.2.2.2.1, h.2.2.2.2.2.2⟩

/-- Witness for C2 at the `{10,11,12}` example. -/
theorem claim_C2_witness :
    (splitIntoRuns [exTen, exEleven, exTwelve] Kind.Enum).flatten =
      normalizeValues [exTen, exEleven, exTwelve] ∧
    List.Chain' (boundaryFail Kind.Enum)
      (splitIntoRuns [exTen, exEleven, exTwelve] Kind.Enum) :=
  have h := claim_C2 [exTen, exEleven, exTwelve] Kind.Enum
  ⟨h.1, h.2.2.2⟩

end Stringer
